import Mathlib

/-!
Verification development for the AI course/task generation pipeline of the
sensai backend (src/api/routes/ai.py together with its job-ledger tables).

The Python source is shallowly embedded: the streaming course-structure
worker `_generate_course_structure` (ai.py lines 619-775), the fan-out
endpoint `generate_course_tasks` (lines 1058-1114), the per-task worker
`generate_course_task` (lines 974-1055) and the resume supervisors
(lines 1117-1173) are translated into pure Lean functions over an explicit
`World` record that stands for the SQLite tables plus the websocket event
log.  Database helpers that live in files not present in this snapshot
(api/db/course.py, api/db/task.py, api/utils/concurrency.py,
api/websockets.py) are modelled from the specification and are marked
`Modelled from the spec:` in their doc comments.
-/

namespace SensAI

/-- Job status enum for course-structure generation jobs
(`GenerateCourseJobStatus`, api/models.py lines 332-346). -/
inductive GenerateCourseJobStatus where
  | started
  | pending
  | completed
  | failed
deriving DecidableEq

/-- Job status enum for per-task generation jobs
(`GenerateTaskJobStatus`, api/models.py lines 349-363). -/
inductive GenerateTaskJobStatus where
  | started
  | completed
  | failed
deriving DecidableEq

/-- One task of the streamed course outline (`Task` pydantic model inside
`_generate_course_structure`, ai.py lines 628-635).  The `type` field is a
string: pydantic turns the value into the `TaskType` enum exactly when it
equals `"learning_material"` or `"quiz"`, and the loop treats anything else
as not-yet-valid, so the string value carries all the information. -/
structure Task where
  name : String
  description : String
  type : String
deriving DecidableEq

/-- One concept of the streamed outline (`Concept`, ai.py lines 637-642). -/
structure Concept where
  name : String
  description : String
  tasks : List Task
deriving DecidableEq

/-- One module of the streamed outline (`Module`, ai.py lines 644-646). -/
structure Module where
  name : String
  concepts : List Concept
deriving DecidableEq

/-- One provider emission (`Output`, ai.py lines 648-650): the partially
filled outline yielded by the streaming structured-generation call. -/
structure Output where
  modules : List Module
deriving DecidableEq

/-- Stamped task: an outline task carrying the durable integer id assigned
when the draft task row was materialized (ai.py lines 757-758). -/
structure STask where
  id : Nat
  name : String
  description : String
  type : String
deriving DecidableEq

/-- Stamped concept of the authoritative outline. -/
structure SConcept where
  name : String
  description : String
  tasks : List STask
deriving DecidableEq

/-- Stamped module: carries the milestone id assigned at materialization
(ai.py line 754). -/
structure SModule where
  id : Nat
  name : String
  concepts : List SConcept
deriving DecidableEq

/-- The authoritative outline persisted into the parent job's details
(`job_details["course_structure"]`, ai.py line 760). -/
structure StampedOutline where
  modules : List SModule
deriving DecidableEq

/-- Websocket events broadcast on a course's progress channel.  These are
the only four shapes ever passed to `websocket_manager.send_item_update`
in the repository (ai.py lines 577-588, 603-615, 769-775, 1041-1050). -/
inductive Event where
  | module_created (course_id : Nat) (module_id : Nat) (name : String)
      (color : String) (ordering : Nat)
  | task_created (course_id : Nat) (task_id : Nat) (module_id : Nat)
      (ordering : Nat) (type : String) (name : String)
  | task_completed (course_id : Nat) (task_id : Nat) (total_completed : Nat)
  | course_structure_completed (course_id : Nat) (job_id : String)
deriving DecidableEq

/-- Event name string, the `"event"` key of the broadcast JSON payload. -/
def Event.name : Event → String
  | .module_created _ _ _ _ _ => "module_created"
  | .task_created _ _ _ _ _ _ => "task_created"
  | .task_completed _ _ _ => "task_completed"
  | .course_structure_completed _ _ => "course_structure_completed"

/-- Milestone (module) row of the relational store, created by
`add_milestone_to_course`. -/
structure MilestoneRow where
  id : Nat
  course_id : Nat
  name : String
  ordering : Nat
deriving DecidableEq

/-- Draft task row of the relational store, created by
`create_draft_task_for_course`. -/
structure TaskRow where
  id : Nat
  course_id : Nat
  milestone_id : Nat
  name : String
  type : String
  ordering : Nat
deriving DecidableEq

/-- Details payload of a course-structure generation job: the request
fields plus the OpenAI file id (ai.py line 811), and - once generation
finishes - the stamped outline (ai.py line 760). -/
structure JobDetails where
  course_description : String
  intended_audience : String
  instructions : String
  openai_file_id : String
  course_structure : Option StampedOutline
deriving DecidableEq

/-- Row of the `course_generation_jobs` table
(api/db/__init__.py lines 404-419). -/
structure CourseJob where
  uuid : String
  course_id : Nat
  status : GenerateCourseJobStatus
  job_details : JobDetails
deriving DecidableEq

/-- Details payload stored for a task generation job: exactly the five
fields recorded at dispatch (ai.py lines 1080-1086). -/
structure TaskJobDetails where
  task : STask
  concept : SConcept
  openai_file_id : String
  course_job_uuid : String
  course_id : Nat
deriving DecidableEq

/-- Row of the `task_generation_jobs` table
(api/db/__init__.py lines 422-443). -/
structure TaskJob where
  uuid : String
  task_id : Nat
  course_id : Nat
  status : GenerateTaskJobStatus
  job_details : TaskJobDetails
deriving DecidableEq

/-- Global state: the relational tables touched by the generation
pipeline, fresh-id counters standing for SQLite AUTOINCREMENT and uuid
generation, the persisted task contents, and the ordered log of websocket
events broadcast so far. -/
structure World where
  nextMilestoneId : Nat
  nextTaskRowId : Nat
  nextJobId : Nat
  milestones : List MilestoneRow
  taskRows : List TaskRow
  courseJobs : List CourseJob
  taskJobs : List TaskJob
  contents : List (Nat × String)
  events : List Event
deriving DecidableEq

/-! ### Association lists

`module_concepts` in `_generate_course_structure` (ai.py line 708) is a
`defaultdict(lambda: defaultdict(list))`: module id -> concept index ->
list of created draft-task ids.  Keys spring into existence on access; all
reads are keyed, so an association list is observation-equivalent. -/

/-- First-match lookup in an association list. -/
def assocGet {β : Type} (l : List (Nat × β)) (k : Nat) : Option β :=
  match l with
  | [] => none
  | (k', v) :: rest => if k' = k then some v else assocGet rest k

/-- Replace the first binding of `k`, or append a new binding at the end
(matching Python dict insertion order). -/
def assocSet {β : Type} (l : List (Nat × β)) (k : Nat) (v : β) : List (Nat × β) :=
  match l with
  | [] => [(k, v)]
  | (k', v') :: rest =>
      if k' = k then (k, v) :: rest else (k', v') :: assocSet rest k v

/-- Inner map of `module_concepts`: concept index -> created task ids. -/
abbrev Inner := List (Nat × List Nat)

/-- `module_concepts`: module id -> concept index -> created task ids. -/
abbrev MC := List (Nat × Inner)

/-- Value of `module_concepts[module_id][concept_index]` (defaulting to the
empty list, as the defaultdict does). -/
def mcTasks (mc : MC) (mid ci : Nat) : List Nat :=
  (assocGet ((assocGet mc mid).getD []) ci).getD []

/-- Value of `len(module_concepts[module_id])`: the number of concept keys
recorded under a module id. -/
def mcKeyCount (mc : MC) (mid : Nat) : Nat :=
  ((assocGet mc mid).getD []).length

/-- Effect of `module_concepts[module_id][concept_index].append(task_id)`
(ai.py line 747). -/
def mcAppend (mc : MC) (mid ci tid : Nat) : MC :=
  let inner := (assocGet mc mid).getD []
  assocSet mc mid (assocSet inner ci ((assocGet inner ci).getD [] ++ [tid]))

/-! ### The streaming materialization loop (ai.py lines 706-749) -/

/-- Loop state of `_generate_course_structure`: the `module_ids` list, the
`module_concepts` nested dict, and the world being mutated. -/
structure GenSt where
  module_ids : List Nat
  module_concepts : MC
  world : World
deriving DecidableEq

/-- Validity test applied to a streamed task (ai.py lines 737-743):
nonempty name and a type that pydantic coerced into the `TaskType` enum,
i.e. exactly `"learning_material"` or `"quiz"`. -/
def taskValid (t : Task) : Bool :=
  t.name != "" && (t.type == "learning_material" || t.type == "quiz")

/-- Validity test applied to a streamed concept (ai.py lines 729-731):
the concept exists and has a nonempty task list. -/
def conceptValid (c : Concept) : Bool :=
  !c.tasks.isEmpty

/-- Validity test applied to a streamed module (ai.py line 717):
nonempty name and nonempty concept list. -/
def moduleValid (m : Module) : Bool :=
  m.name != "" && !m.concepts.isEmpty

/-- Color passed to `add_milestone_to_course`.  The source picks a random
element of a fixed palette (ai.py lines 558-573); the choice never
influences control flow or any claim, so the model fixes the first one. -/
def moduleColor : String := "#2d3748"

/-- Modelled from the spec: `add_milestone_to_course` (api/db/course.py is
not under src).  Per the data model (spec section 3) a materialized module
gets a fresh durable integer id and the next ordering position for its
course; the pair `(module_id, ordering)` is returned (ai.py line 574). -/
def add_milestone_to_course (w : World) (course_id : Nat) (name : String) :
    (Nat × Nat) × World :=
  let id := w.nextMilestoneId
  let ordering := (w.milestones.filter (fun r => r.course_id == course_id)).length
  (⟨id, ordering⟩,
    { w with
      nextMilestoneId := id + 1
      milestones := w.milestones ++ [⟨id, course_id, name, ordering⟩] })

/-- Modelled from the spec: `create_draft_task_for_course` (api/db/task.py
is not under src).  Inserts a draft task row with a fresh durable id and
the next ordering position for the course, returning
`(task_id, task_ordering)` (ai.py lines 594-599). -/
def create_draft_task_for_course (w : World) (name type : String)
    (course_id milestone_id : Nat) : (Nat × Nat) × World :=
  let id := w.nextTaskRowId
  let ordering := (w.taskRows.filter (fun r => r.course_id == course_id)).length
  (⟨id, ordering⟩,
    { w with
      nextTaskRowId := id + 1
      taskRows := w.taskRows ++ [⟨id, course_id, milestone_id, name, type, ordering⟩] })

/-- `add_generated_module` (ai.py lines 556-590): materialize one module
and broadcast the `module_created` event; returns the new module id.  The
result also appends the id to `module_ids` (ai.py line 722, done by the
caller in the source; folded in here because the two always go together
in the create branch). -/
def createModule (course_id : Nat) (m : Module) (s : GenSt) : Nat × GenSt :=
  let r := add_milestone_to_course s.world course_id m.name
  let w := { r.2 with
    events := r.2.events ++ [Event.module_created course_id r.1.1 m.name moduleColor r.1.2] }
  (r.1.1, { s with world := w, module_ids := s.module_ids ++ [r.1.1] })

/-- `add_generated_draft_task` (ai.py lines 593-616) plus the bookkeeping
`module_concepts[module_id][concept_index].append(task_id)` of the caller
(ai.py line 747): create the draft row, broadcast `task_created`, record
the id. -/
def createDraftTask (course_id mid ci : Nat) (t : Task) (s : GenSt) : GenSt :=
  let r := create_draft_task_for_course s.world t.name t.type course_id mid
  let w := { r.2 with
    events := r.2.events ++ [Event.task_created course_id r.1.1 mid r.1.2 t.type t.name] }
  { s with
    world := w
    module_concepts := mcAppend s.module_concepts mid ci r.1.1 }

/-- Inner task loop of the stream consumer (ai.py lines 736-747),
enumerating `concept.tasks` from index `ti`.  A task is skipped when it is
invalid or when its index is below the number of ids already recorded for
this `(module_id, concept_index)` - the per-concept dedup cursor. -/
def processTasksFrom (course_id mid ci : Nat) (ti : Nat) (ts : List Task)
    (s : GenSt) : GenSt :=
  match ts with
  | [] => s
  | t :: rest =>
      if taskValid t ∧ (mcTasks s.module_concepts mid ci).length ≤ ti then
        processTasksFrom course_id mid ci (ti + 1) rest
          (createDraftTask course_id mid ci t s)
      else
        processTasksFrom course_id mid ci (ti + 1) rest s

/-- Middle concept loop (ai.py lines 728-747), enumerating
`module.concepts` from index `ci`.  A concept is skipped when invalid or
when `concept_index < len(module_concepts[module_id]) - 1`; note Python's
`len(...) - 1` equals `-1` for an empty dict and truncated `Nat`
subtraction gives `0` there, and `ci < -1` and `ci < 0` are both false,
so the translation is exact. -/
def processConceptsFrom (course_id mid : Nat) (ci : Nat) (cs : List Concept)
    (s : GenSt) : GenSt :=
  match cs with
  | [] => s
  | c :: rest =>
      if conceptValid c ∧ ¬ ci < mcKeyCount s.module_concepts mid - 1 then
        processConceptsFrom course_id mid (ci + 1) rest
          (processTasksFrom course_id mid ci 0 c.tasks s)
      else
        processConceptsFrom course_id mid (ci + 1) rest s

/-- Outer module loop (ai.py lines 716-747), enumerating `chunk.modules`
from index `i`.  An invalid module is skipped entirely; otherwise a module
at an index beyond `len(module_ids)` is materialized, and an index already
covered reuses `module_ids[index]`. -/
def processModulesFrom (course_id : Nat) (i : Nat) (ms : List Module)
    (s : GenSt) : GenSt :=
  match ms with
  | [] => s
  | m :: rest =>
      if moduleValid m then
        if s.module_ids.length ≤ i then
          let r := createModule course_id m s
          processModulesFrom course_id (i + 1) rest
            (processConceptsFrom course_id r.1 0 m.concepts r.2)
        else
          processModulesFrom course_id (i + 1) rest
            (processConceptsFrom course_id (s.module_ids.getD i 0) 0 m.concepts s)
      else
        processModulesFrom course_id (i + 1) rest s

/-- Body of `async for chunk in stream` (ai.py lines 712-747): an emission
with no modules is skipped (`if not chunk or not chunk.modules: continue`),
otherwise every module is enumerated. -/
def processEmission (course_id : Nat) (s : GenSt) (chunk : Output) : GenSt :=
  if chunk.modules.isEmpty then s
  else processModulesFrom course_id 0 chunk.modules s

/-- The whole stream-consumption loop over the provider's emissions. -/
def processEmissions (course_id : Nat) (chunks : List Output) (s : GenSt) : GenSt :=
  chunks.foldl (processEmission course_id) s

/-! ### Stamping the final emission (ai.py lines 751-758)

`output = chunk.model_dump()` takes the final emission and back-fills the
durable ids: `module["id"] = module_ids[index]` and
`task["id"] = module_concepts[module["id"]][concept_index][task_index]`.
A plain Python list index raises `IndexError` when out of range, which the
model renders as `none`; the defaultdict accesses cannot fail and default
to the empty list, after which the list index fails - same as here. -/

/-- Stamp the tasks of one concept with their recorded draft-task ids. -/
def stampTasks (mc : MC) (mid ci : Nat) (ti : Nat) (ts : List Task) :
    Option (List STask) :=
  match ts with
  | [] => some []
  | t :: rest =>
      match (mcTasks mc mid ci).get? ti with
      | none => none
      | some tid =>
          match stampTasks mc mid ci (ti + 1) rest with
          | none => none
          | some srest => some (⟨tid, t.name, t.description, t.type⟩ :: srest)

/-- Stamp the concepts of one module. -/
def stampConcepts (mc : MC) (mid : Nat) (ci : Nat) (cs : List Concept) :
    Option (List SConcept) :=
  match cs with
  | [] => some []
  | c :: rest =>
      match stampTasks mc mid ci 0 c.tasks with
      | none => none
      | some sts =>
          match stampConcepts mc mid (ci + 1) rest with
          | none => none
          | some srest => some (⟨c.name, c.description, sts⟩ :: srest)

/-- Stamp the modules of the final emission with `module_ids[index]`. -/
def stampModules (mids : List Nat) (mc : MC) (i : Nat) (ms : List Module) :
    Option (List SModule) :=
  match ms with
  | [] => some []
  | m :: rest =>
      match mids.get? i with
      | none => none
      | some mid =>
          match stampConcepts mc mid 0 m.concepts with
          | none => none
          | some scs =>
              match stampModules mids mc (i + 1) rest with
              | none => none
              | some srest => some (⟨mid, m.name, scs⟩ :: srest)

/-- The id-stamping pass over the final emission (ai.py lines 751-758). -/
def stampOutline (mids : List Nat) (mc : MC) (out : Output) : Option StampedOutline :=
  (stampModules mids mc 0 out.modules).map StampedOutline.mk

/-! ### Job-ledger operations

The job tables are created in api/db/__init__.py (lines 404-443); the row
operations live in api/db/course.py and api/db/task.py, which are not part
of this snapshot, so they are modelled from the specification's Job Ledger
contract (spec section 4.1). -/

/-- Modelled from the spec: `store_course_generation_request`
(api/db/course.py, not under src).  Inserts a course-structure job row
with a fresh opaque token and status `started` (spec section 4.1:
`create(subject_id, details) -> token`). -/
def store_course_generation_request (w : World) (course_id : Nat)
    (jd : JobDetails) : String × World :=
  let uuid := "course-job-" ++ toString w.nextJobId
  (uuid,
    { w with
      nextJobId := w.nextJobId + 1
      courseJobs := w.courseJobs ++ [⟨uuid, course_id, .started, jd⟩] })

/-- Modelled from the spec: `update_course_generation_job_status_and_details`
(api/db/course.py, not under src).  Last-write-wins keyed update of status
and details (spec section 4.1). -/
def update_course_generation_job_status_and_details (w : World) (uuid : String)
    (st : GenerateCourseJobStatus) (jd : JobDetails) : World :=
  { w with
    courseJobs := w.courseJobs.map (fun j =>
      if j.uuid = uuid then { j with status := st, job_details := jd } else j) }

/-- Modelled from the spec: `update_course_generation_job_status`
(api/db/course.py, not under src). -/
def update_course_generation_job_status (w : World) (uuid : String)
    (st : GenerateCourseJobStatus) : World :=
  { w with
    courseJobs := w.courseJobs.map (fun j =>
      if j.uuid = uuid then { j with status := st } else j) }

/-- Modelled from the spec: `update_task_generation_job_status`
(api/db/task.py, not under src). -/
def update_task_generation_job_status (w : World) (uuid : String)
    (st : GenerateTaskJobStatus) : World :=
  { w with
    taskJobs := w.taskJobs.map (fun j =>
      if j.uuid = uuid then { j with status := st } else j) }

/-- Modelled from the spec: `get_course_generation_job_details`
(api/db/course.py, not under src): `get(token) -> details | NotFound`. -/
def get_course_generation_job_details (w : World) (uuid : String) :
    Option JobDetails :=
  (w.courseJobs.find? (fun j => j.uuid == uuid)).map (·.job_details)

/-- Modelled from the spec: `store_task_generation_request`
(api/db/task.py, not under src).  Inserts a task job row with a fresh
token and status `started`, carrying the given details payload. -/
def store_task_generation_request (w : World) (task_id course_id : Nat)
    (jd : TaskJobDetails) : String × World :=
  let uuid := "task-job-" ++ toString w.nextJobId
  (uuid,
    { w with
      nextJobId := w.nextJobId + 1
      taskJobs := w.taskJobs ++ [⟨uuid, task_id, course_id, .started, jd⟩] })

/-- Aggregate counts returned by `get_course_task_generation_jobs_status`. -/
structure TaskJobStatusCounts where
  started : Nat
  completed : Nat
  failed : Nat
deriving DecidableEq

/-- Modelled from the spec: `get_course_task_generation_jobs_status`
(api/db/task.py, not under src): `aggregate_status(course_id) ->
status -> count` over the course's task jobs (spec section 4.1). -/
def get_course_task_generation_jobs_status (w : World) (course_id : Nat) :
    TaskJobStatusCounts :=
  ⟨w.taskJobs.countP (fun j => decide (j.course_id = course_id ∧ j.status = .started)),
   w.taskJobs.countP (fun j => decide (j.course_id = course_id ∧ j.status = .completed)),
   w.taskJobs.countP (fun j => decide (j.course_id = course_id ∧ j.status = .failed))⟩

/-- Modelled from the spec: `get_all_pending_course_structure_generation_jobs`
(api/db/course.py, not under src): `list_incomplete_course_jobs()` returns
jobs whose status is not `completed`/`failed` (spec section 4.1). -/
def get_all_pending_course_structure_generation_jobs (w : World) : List CourseJob :=
  w.courseJobs.filter (fun j => decide (j.status ≠ .completed ∧ j.status ≠ .failed))

/-- Modelled from the spec: `get_all_pending_task_generation_jobs`
(api/db/task.py, not under src): `list_incomplete_task_jobs()` returns
jobs whose status is not `completed`/`failed`. -/
def get_all_pending_task_generation_jobs (w : World) : List TaskJob :=
  w.taskJobs.filter (fun j => decide (j.status ≠ .completed ∧ j.status ≠ .failed))

/-- Status of the course job with the given token, if present. -/
def courseJobStatus (w : World) (uuid : String) : Option GenerateCourseJobStatus :=
  (w.courseJobs.find? (fun j => j.uuid == uuid)).map (·.status)

/-! ### The course-structure worker end to end (ai.py lines 619-775) -/

/-- `_generate_course_structure` (ai.py lines 619-775).  The external
provider's streaming call is modelled by the list of emissions `chunks`.
After the loop, `output = chunk.model_dump()` reads the loop variable of
the exhausted `async for`, which is unbound when the stream yielded
nothing (a `NameError`), and the stamping pass indexes plain lists, which
raises `IndexError` when an entity was never materialized; both crashes
are rendered as `none`.  On success the stamped outline is written into
the job details, the job status is set to `pending` (line 761-765) and the
`course_structure_completed` event is broadcast (lines 769-775). -/
def _generate_course_structure (chunks : List Output) (course_id : Nat)
    (course_job_uuid : String) (job_details : JobDetails) (w : World) :
    Option World :=
  let s := processEmissions course_id chunks ⟨[], [], w⟩
  match chunks.getLast? with
  | none => none
  | some last =>
      match stampOutline s.module_ids s.module_concepts last with
      | none => none
      | some stamped =>
          let jd := { job_details with course_structure := some stamped }
          let w' := update_course_generation_job_status_and_details s.world
            course_job_uuid .pending jd
          some { w' with
            events := w'.events ++ [Event.course_structure_completed course_id course_job_uuid] }

/-- Modelled from the spec: the Resume Supervisor's course-structure path
(`resume_pending_course_structure_generation_jobs`, ai.py lines 1117-1142;
the listing helper it calls lives in api/db/course.py, not under src).
Each incomplete course job is re-run through `_generate_course_structure`
with its stored details; `streams` supplies the provider's emissions for
each resumed job token.  The source runs the jobs through
`async_batch_gather`; a sequential fold is an admissible schedule of it
and suffices for the resumption claims. -/
def resume_pending_course_structure_generation_jobs
    (streams : String → List Output) (w : World) : Option World :=
  (get_all_pending_course_structure_generation_jobs w).foldlM
    (fun w j => _generate_course_structure (streams j.uuid) j.course_id j.uuid
      j.job_details w) w

/-! ### Fan-out dispatch (ai.py lines 1058-1114) -/

/-- Arguments of one deferred `generate_course_task` coroutine built by the
fan-out loop (ai.py lines 1089-1099).  Building the coroutine object does
not run it; the list of `WorkUnit`s returned by `generate_course_tasks`
stands for the coroutines handed to `async_batch_gather` afterwards. -/
structure WorkUnit where
  task : STask
  concept : SConcept
  openai_file_id : String
  task_job_uuid : String
  course_job_uuid : String
  course_id : Nat
deriving DecidableEq

/-- The leaf tasks of a stamped outline, each paired with its enclosing
concept, in the order the triple loop of `generate_course_tasks` visits
them (ai.py lines 1074-1076). -/
def leavesWithConcept (cs : StampedOutline) : List (SConcept × STask) :=
  cs.modules.flatMap (fun m => m.concepts.flatMap (fun c => c.tasks.map (fun t => (c, t))))

/-- Body of the fan-out loop (ai.py lines 1074-1099): for each leaf task,
record a task job carrying the five-field details payload, and build the
deferred worker invocation. -/
def storeLeafJobs (course_id : Nat) (job_uuid file_id : String) :
    List (SConcept × STask) → World → World × List WorkUnit
  | [], w => (w, [])
  | (c, t) :: rest, w =>
      let r := store_task_generation_request w t.id course_id
        ⟨t, c, file_id, job_uuid, course_id⟩
      let r2 := storeLeafJobs course_id job_uuid file_id rest r.2
      (r2.1, ⟨t, c, file_id, r.1, job_uuid, course_id⟩ :: r2.2)

/-- `generate_course_tasks` (ai.py lines 1058-1114).  Looks up the parent
job's details (a missing job or a details payload without
`course_structure` is a `KeyError`, rendered `none`), records one task job
per leaf, and returns the state at the moment the HTTP response is sent
together with the still-unexecuted worker units: `asyncio.create_task`
only schedules `run_tasks_in_parallel`, and the handler returns without
awaiting it, so no worker body has run at response time. -/
def generate_course_tasks (course_id : Nat) (job_uuid : String) (w : World) :
    Option (World × List WorkUnit) :=
  match get_course_generation_job_details w job_uuid with
  | none => none
  | some jd =>
      match jd.course_structure with
      | none => none
      | some cs => some (storeLeafJobs course_id job_uuid jd.openai_file_id
          (leavesWithConcept cs) w)

/-- The task jobs the fan-out is expected to record for a list of leaves,
with fresh tokens numbered from `n`: one `started` job per leaf carrying
the task descriptor, the concept descriptor, the reference-material
handle, the parent job token and the course id. -/
def expectedTaskJobs (course_id : Nat) (job_uuid file_id : String) (n : Nat) :
    List (SConcept × STask) → List TaskJob
  | [] => []
  | (c, t) :: rest =>
      ⟨"task-job-" ++ toString n, t.id, course_id, .started,
        ⟨t, c, file_id, job_uuid, course_id⟩⟩ ::
        expectedTaskJobs course_id job_uuid file_id (n + 1) rest

/-! ### The task-content worker (ai.py lines 974-1055) -/

/-- `generate_course_task` (ai.py lines 974-1055).  `providerResult`
models the outcome of the structured-generation call
`client.chat.completions.create` (line 1018); `persistResult` the outcome
of `add_generated_learning_material` / `add_generated_quiz`
(lines 1028-1031), treated as atomic.  The source contains no
`try`/`except`: an exception propagates out of the function with the
world unchanged up to that point - in particular the task job's status is
never set to `failed` (no code path in ai.py writes
`GenerateTaskJobStatus.FAILED`).  On success the content is persisted,
the job is marked `completed` (lines 1033-1035), the aggregate counts are
read (line 1037), the `task_completed` event is broadcast
(lines 1041-1050), and if no `started` job remains for the course the
parent job is marked `completed` (lines 1052-1055). -/
def generate_course_task (providerResult : Except String String)
    (persistResult : Except String Unit) (u : WorkUnit) (w : World) :
    World × Except String Unit :=
  match providerResult with
  | .error e => (w, .error e)
  | .ok content =>
      match persistResult with
      | .error e => (w, .error e)
      | .ok _ =>
          let w := { w with contents := w.contents ++ [(u.task.id, content)] }
          let w := update_task_generation_job_status w u.task_job_uuid .completed
          let counts := get_course_task_generation_jobs_status w u.course_id
          let w := { w with
            events := w.events ++ [Event.task_completed u.course_id u.task.id counts.completed] }
          if counts.started = 0 then
            (update_course_generation_job_status w u.course_job_uuid .completed, .ok ())
          else
            (w, .ok ())

/-! ### Interleaved completion bookkeeping (for the completion-aggregation
claim)

Concurrent task workers of one course interleave on the event loop.  Each
successful worker performs, separated by awaits, (a) the status write
`update_task_generation_job_status(uuid, COMPLETED)` (ai.py line 1033) and
(b) the aggregate read plus conditional parent update (lines 1037 and
1052-1055).  A worker that raises performs neither (the exception occurs
in the provider call or in persistence, both before the status write).
A schedule is any interleaving of these atomic actions; the websocket
emission between (a) and (b) touches no job status and is omitted here
(it is covered by the worker function above). -/

/-- One atomic action of a task worker: its completion write or its
aggregate check, identified by the worker's task-job token. -/
inductive FanAction where
  | complete (task_job_uuid : String)
  | check (task_job_uuid : String)
deriving DecidableEq

/-- Execute one action (see ai.py lines 1033-1035 for `complete` and
lines 1037, 1052-1055 for `check`). -/
def fanStep (course_id : Nat) (parent_uuid : String) (w : World) :
    FanAction → World
  | .complete u => update_task_generation_job_status w u .completed
  | .check _ =>
      let counts := get_course_task_generation_jobs_status w course_id
      if counts.started = 0 then
        update_course_generation_job_status w parent_uuid .completed
      else w

/-- Execute a whole schedule of worker actions. -/
def runFan (course_id : Nat) (parent_uuid : String) (acts : List FanAction)
    (w : World) : World :=
  acts.foldl (fanStep course_id parent_uuid) w

/-- Decidable form of "every check comes after its worker's completion
write": at each position holding `check u`, `complete u` occurs earlier. -/
def checkAfterB (acts : List FanAction) : Bool :=
  (List.range acts.length).all (fun i =>
    match acts.getD i (.check "") with
    | .check u => decide (FanAction.complete u ∈ acts.take i)
    | .complete _ => true)

/-- Well-formed schedule for the fan-out over task-job tokens `U`, where
`succ u` says whether worker `u` runs to success: every successful worker
contributes its completion write (exactly once) and its check, the check
after the write; failed workers contribute nothing (their exception is
raised before the status write); no foreign actions occur. -/
structure WfSchedule (U : List String) (succ : String → Bool)
    (acts : List FanAction) : Prop where
  compl_mem : ∀ u ∈ U, succ u = true → FanAction.complete u ∈ acts
  compl_unique : ∀ u ∈ U,
    acts.countP (fun a => decide (a = FanAction.complete u)) ≤ 1
  check_mem : ∀ u ∈ U, succ u = true → FanAction.check u ∈ acts
  fail_no_compl : ∀ u ∈ U, succ u = false → FanAction.complete u ∉ acts
  act_mem : ∀ a ∈ acts, ∃ u ∈ U, succ u = true ∧
    (a = FanAction.complete u ∨ a = FanAction.check u)
  check_after : checkAfterB acts = true

/-! ### The bounded-concurrency batch runner

Modelled from the spec: `async_batch_gather` (api/utils/concurrency.py is
not under src).  Per spec sections 4.3 and 5 it is a bounded-concurrency
batch runner: a fixed-size pool of in-flight provider calls, remaining
work queued, each unit of work running to its own terminal outcome, batch
failures isolated per unit (a unit's failure neither cancels nor blocks
the others).  Units of work are identified by naturals; `oc u` is the
terminal outcome (success/failure) of unit `u`. -/

/-- Scheduler state of the batch runner: queued units, in-flight units,
finished units with their own outcomes. -/
structure BatchState where
  queued : List Nat
  running : List Nat
  finished : List (Nat × Bool)
deriving DecidableEq

/-- One scheduler step: launch the next queued unit when the pool has room,
or let any in-flight unit finish with its own outcome.  No step inspects
any other unit's outcome - failures are isolated per unit of work. -/
inductive BatchStep (K : Nat) (oc : Nat → Bool) : BatchState → BatchState → Prop where
  | launch (u : Nat) (rest run fin) :
      run.length < K →
      BatchStep K oc ⟨u :: rest, run, fin⟩ ⟨rest, run ++ [u], fin⟩
  | finish (u : Nat) (que run fin) :
      u ∈ run →
      BatchStep K oc ⟨que, run, fin⟩ ⟨que, run.erase u, (u, oc u) :: fin⟩

/-- Reachability in the batch runner's transition system. -/
inductive BatchReach (K : Nat) (oc : Nat → Bool) (init : BatchState) :
    BatchState → Prop where
  | refl : BatchReach K oc init init
  | step {s s'} : BatchReach K oc init s → BatchStep K oc s s' →
      BatchReach K oc init s'

/-- Initial scheduler state for a batch of units. -/
def batchInit (units : List Nat) : BatchState := ⟨units, [], []⟩

/-! ### Well-formedness and growth orders on emissions -/

/-- All tasks of a list pass the loop's validity test. -/
def tasksValid (ts : List Task) : Bool := ts.all taskValid

/-- A concept is well formed when it has at least one task and all its
tasks are valid. -/
def conceptWF (c : Concept) : Bool := conceptValid c && tasksValid c.tasks

/-- A module is well formed when it passes the loop's validity test and
all its concepts are well formed. -/
def moduleWF (m : Module) : Bool := moduleValid m && m.concepts.all conceptWF

/-- An emission is well formed when every module is well formed. -/
def outlineWF (E : Output) : Bool := E.modules.all moduleWF

/-- Depth-first tail extension of lists: all elements but the last are
unchanged, the last element may be extended (per `ext`), and new elements
may be appended after it. -/
def tailExt {α : Type} [DecidableEq α] (ext : α → α → Bool) :
    List α → List α → Bool
  | [], _ => true
  | _ :: _, [] => false
  | a :: as, b :: bs =>
      match as with
      | [] => ext a b
      | _ :: _ => decide (a = b) && tailExt ext as bs

/-- Concept extension: same name and description, task list extended only
by appending new tasks at the end. -/
def conceptExt (c c' : Concept) : Bool :=
  decide (c.name = c'.name) && decide (c.description = c'.description) &&
    tailExt (fun t t' => decide (t = t')) c.tasks c'.tasks

/-- Module extension: same name, concepts extended depth-first at the
tail. -/
def moduleExt (m m' : Module) : Bool :=
  decide (m.name = m'.name) && tailExt conceptExt m.concepts m'.concepts

/-- Emission extension: modules extended depth-first at the tail. -/
def outlineExt (E E' : Output) : Bool := tailExt moduleExt E.modules E'.modules

/-- A chain of emissions each extending the previous depth-first. -/
def extChain : List Output → Bool
  | [] => true
  | [_] => true
  | E :: E' :: rest => outlineExt E E' && extChain (E' :: rest)

/-! ### The spec's superset order on emissions

The specification describes the provider stream as: "each emission is a
superset of the previous one - more modules/concepts/tasks filled in,
never fewer".  Formalized: entity lists never shrink, and a string field,
once filled, never changes (an empty field may become filled). -/

/-- A string field is filled in: previously empty, or unchanged. -/
def fillsIn (s s' : String) : Bool := s == "" || s == s'

/-- Pointwise superset on lists: never fewer elements, existing positions
related by `le`. -/
def pairSup {α : Type} (le : α → α → Bool) (l l' : List α) : Bool :=
  decide (l.length ≤ l'.length) && (l.zip l').all (fun p => le p.1 p.2)

/-- Task-level superset. -/
def taskSup (t t' : Task) : Bool := fillsIn t.name t'.name && fillsIn t.type t'.type

/-- Concept-level superset. -/
def conceptSup (c c' : Concept) : Bool := pairSup taskSup c.tasks c'.tasks

/-- Module-level superset. -/
def moduleSup (m m' : Module) : Bool :=
  fillsIn m.name m'.name && pairSup conceptSup m.concepts m'.concepts

/-- Emission-level superset, the spec's monotonicity hypothesis. -/
def outlineSup (E E' : Output) : Bool := pairSup moduleSup E.modules E'.modules

/-! ### Canonical state of the loop after consuming a well-formed
depth-first chain -/

/-- Consecutive ids starting at `s`. -/
def idRange : Nat → Nat → List Nat
  | _, 0 => []
  | s, n + 1 => s :: idRange (s + 1) n

/-- All leaf tasks of a module, in order. -/
def tasksOf (m : Module) : List Task := m.concepts.flatMap (·.tasks)

/-- All leaf tasks of a module list, in depth-first order. -/
def dfsTasks (ms : List Module) : List Task := ms.flatMap tasksOf

/-- Canonical inner dict for one module's concepts: key `ci` holds the
consecutive draft-task ids of concept `ci`, task ids counted from `tb`. -/
def canonInnerAux (tb ci : Nat) : List Concept → Inner
  | [] => []
  | c :: rest =>
      (ci, idRange tb c.tasks.length) ::
        canonInnerAux (tb + c.tasks.length) (ci + 1) rest

/-- Canonical `module_concepts` for a module list, module ids counted from
`mb` and task ids from `tb`. -/
def canonMCAux (mb tb : Nat) : List Module → MC
  | [] => []
  | m :: rest =>
      (mb, canonInnerAux tb 0 m.concepts) ::
        canonMCAux (mb + 1) (tb + (tasksOf m).length) rest

/-- Draft-task rows created for the tasks of one module. -/
def taskRowsFor (cid mid tb tob : Nat) : List Task → List TaskRow
  | [] => []
  | t :: rest =>
      ⟨tb, cid, mid, t.name, t.type, tob⟩ :: taskRowsFor cid mid (tb + 1) (tob + 1) rest

/-- `task_created` events fired for the tasks of one module. -/
def taskEventsFor (cid mid tb tob : Nat) : List Task → List Event
  | [] => []
  | t :: rest =>
      Event.task_created cid tb mid tob t.type t.name ::
        taskEventsFor cid mid (tb + 1) (tob + 1) rest

/-- Rows and events produced by materializing a module list in depth-first
order: milestone rows, draft-task rows, and the interleaved event log. -/
def canonDeltas (cid mb tb ob tob : Nat) :
    List Module → List MilestoneRow × List TaskRow × List Event
  | [] => ([], [], [])
  | m :: rest =>
      let ts := tasksOf m
      let d := canonDeltas cid (mb + 1) (tb + ts.length) (ob + 1) (tob + ts.length) rest
      (⟨mb, cid, m.name, ob⟩ :: d.1,
       taskRowsFor cid mb tb tob ts ++ d.2.1,
       (Event.module_created cid mb m.name moduleColor ob :: taskEventsFor cid mb tb tob ts)
         ++ d.2.2)

/-- Number of milestone rows a course already has. -/
def milestoneCount (w : World) (cid : Nat) : Nat :=
  (w.milestones.filter (fun r => r.course_id == cid)).length

/-- Number of draft-task rows a course already has. -/
def taskRowCount (w : World) (cid : Nat) : Nat :=
  (w.taskRows.filter (fun r => r.course_id == cid)).length

/-- Canonical loop state after fully materializing the module list `ms`
for course `cid`, starting from world `w0`. -/
def canonSt (cid : Nat) (w0 : World) (ms : List Module) : GenSt :=
  let d := canonDeltas cid w0.nextMilestoneId w0.nextTaskRowId
    (milestoneCount w0 cid) (taskRowCount w0 cid) ms
  { module_ids := idRange w0.nextMilestoneId ms.length
    module_concepts := canonMCAux w0.nextMilestoneId w0.nextTaskRowId ms
    world := { w0 with
      nextMilestoneId := w0.nextMilestoneId + ms.length
      nextTaskRowId := w0.nextTaskRowId + (dfsTasks ms).length
      milestones := w0.milestones ++ d.1
      taskRows := w0.taskRows ++ d.2.1
      events := w0.events ++ d.2.2 } }

/-- Total task count of a concept list. -/
def tasksLen (cs : List Concept) : Nat := (cs.flatMap (·.tasks)).length

/-- Fold form of uninterrupted draft-task creation, used to describe what
the task loop does beyond its dedup cursor. -/
def createTasksFold (cid mid ci : Nat) (ts : List Task) (s : GenSt) : GenSt :=
  ts.foldl (fun s t => createDraftTask cid mid ci t s) s

/-- Iterated `mcAppend` at one `(module id, concept index)` key. -/
def mcAppendList (mc : MC) (mid ci : Nat) (tids : List Nat) : MC :=
  tids.foldl (fun mc tid => mcAppend mc mid ci tid) mc

/-- Canonical stamping of a task list with consecutive ids from `tb`. -/
def canonStampTasks (tb : Nat) : List Task → List STask
  | [] => []
  | t :: rest => ⟨tb, t.name, t.description, t.type⟩ :: canonStampTasks (tb + 1) rest

/-- Canonical stamping of a concept list, task ids counted from `tb`. -/
def canonStampConcepts (tb : Nat) : List Concept → List SConcept
  | [] => []
  | c :: rest =>
      ⟨c.name, c.description, canonStampTasks tb c.tasks⟩ ::
        canonStampConcepts (tb + c.tasks.length) rest

/-- Canonical stamping of a module list, module ids from `mb` and task ids
from `tb`. -/
def canonStampModules (mb tb : Nat) : List Module → List SModule
  | [] => []
  | m :: rest =>
      ⟨mb, m.name, canonStampConcepts tb m.concepts⟩ ::
        canonStampModules (mb + 1) (tb + (tasksOf m).length) rest

/-- The outline the finished worker is expected to persist: the final
emission stamped with the ids assigned during materialization. -/
def canonStamp (mb tb : Nat) (E : Output) : StampedOutline :=
  ⟨canonStampModules mb tb E.modules⟩

/-- The four event names of the progress channel (spec section 6). -/
def progressEventNames : List String :=
  ["module_created", "task_created", "task_completed", "course_structure_completed"]

/-! ### Event extraction -/

/-- Names carried by `module_created` events, in emission order. -/
def moduleCreatedNames (evs : List Event) : List String :=
  evs.filterMap (fun e =>
    match e with
    | .module_created _ _ n _ _ => some n
    | _ => none)

/-- Module ids carried by `module_created` events, in emission order. -/
def moduleCreatedIds (evs : List Event) : List Nat :=
  evs.filterMap (fun e =>
    match e with
    | .module_created _ i _ _ _ => some i
    | _ => none)

/-- Name/type pairs carried by `task_created` events, in emission order. -/
def taskCreatedPairs (evs : List Event) : List (String × String) :=
  evs.filterMap (fun e =>
    match e with
    | .task_created _ _ _ _ ty n => some (n, ty)
    | _ => none)

/-- Task ids carried by `task_created` events, in emission order. -/
def taskCreatedIds (evs : List Event) : List Nat :=
  evs.filterMap (fun e =>
    match e with
    | .task_created _ i _ _ _ _ => some i
    | _ => none)

/-- Default module used with `List.getD` in statements about positions. -/
def dMod : Module := ⟨"", []⟩

/-- Task-job status of the job with the given token, if present. -/
def taskJobStatus (w : World) (u : String) : Option GenerateTaskJobStatus :=
  (w.taskJobs.find? (fun j => j.uuid == u)).map (·.status)

/-- The deferred worker invocations the fan-out loop builds, with fresh
task-job tokens numbered from `n` (ai.py lines 1089-1099). -/
def expectedUnits (course_id : Nat) (job_uuid file_id : String) (n : Nat) :
    List (SConcept × STask) → List WorkUnit
  | [] => []
  | (c, t) :: rest =>
      ⟨t, c, file_id, "task-job-" ++ toString n, job_uuid, course_id⟩ ::
        expectedUnits course_id job_uuid file_id (n + 1) rest

/-- Leaf tasks of a stamped outline in depth-first order. -/
def stampedLeaves (so : StampedOutline) : List STask :=
  so.modules.flatMap (fun m => m.concepts.flatMap (·.tasks))

/-- Details payload after the worker writes the stamped outline into it
(ai.py line 760: `job_details["course_structure"] = output`). -/
def withStructure (jd : JobDetails) (so : StampedOutline) : JobDetails :=
  { jd with course_structure := some so }

/-- World as the finished course-structure worker leaves it from loop-end
world `w1`: details updated to the stamped outline, status `pending`, and
the completion event appended (ai.py lines 761-775). -/
def finishWorld (cid : Nat) (uuid : String) (jd : JobDetails) (w1 : World)
    (so : StampedOutline) : World :=
  let upd := update_course_generation_job_status_and_details w1 uuid .pending
    (withStructure jd so)
  { upd with
    events := upd.events ++ [Event.course_structure_completed cid uuid] }

/-! ### Concrete instances

Sample worlds, streams and schedules used by the closed witness and
counterexample theorems below. -/

/-- Fresh world: empty tables, counters at zero. -/
def emptyWorld : World := ⟨0, 0, 0, [], [], [], [], [], []⟩

/-- Sample valid task of the streamed outline format. -/
def cT0 : Task := ⟨"t", "d", "quiz"⟩

/-- Sample valid task. -/
def cT1 : Task := ⟨"t1", "d", "learning_material"⟩

/-- Sample valid task. -/
def cT2 : Task := ⟨"t2", "d", "quiz"⟩

/-- First emission of the superset counterexample: the first module's name
is still the empty string (not yet streamed in full), the second module
`B` is already complete. -/
def cE1 : Output := ⟨[⟨"", [⟨"c", "d", [cT0]⟩]⟩, ⟨"B", [⟨"c", "d", [cT0]⟩]⟩]⟩

/-- Second emission of the superset counterexample: a superset of the
first (the first module's name filled in to `A`). -/
def cE2 : Output := ⟨[⟨"A", [⟨"c", "d", [cT0]⟩]⟩, ⟨"B", [⟨"c", "d", [cT0]⟩]⟩]⟩

/-- First emission of a well-formed depth-first chain. -/
def cEa : Output := ⟨[⟨"A", [⟨"c1", "x", [cT1]⟩]⟩]⟩

/-- Second emission of the chain: extends the last concept's task list,
then adds a concept and a module. -/
def cEb : Output :=
  ⟨[⟨"A", [⟨"c1", "x", [cT1, cT2]⟩, ⟨"c2", "y", [cT0]⟩]⟩, ⟨"B", [⟨"c3", "z", [cT2]⟩]⟩]⟩

/-- Sample course-job details payload without a finished outline. -/
def cJd : JobDetails := ⟨"desc", "aud", "instr", "file-1", none⟩

/-- World holding one `started` course-structure job for course 7. -/
def cW6 : World :=
  { emptyWorld with courseJobs := [⟨"cj", 7, .started, cJd⟩] }

/-- Stamped outline with one module `Intro` holding one quiz leaf, as
already materialized before a restart. -/
def cStampedIntro : StampedOutline :=
  ⟨[⟨0, "Intro", [⟨"c", "d", [⟨0, "t", "dd", "quiz"⟩]⟩]⟩]⟩

/-- Details of a `pending` course job that already reflects one
materialized module. -/
def cJd4 : JobDetails := ⟨"desc", "aud", "instr", "file-1", some cStampedIntro⟩

/-- World after a crash: module `Intro` and its draft task are already in
the relational store, and the course job is `pending` with the stamped
outline in its details. -/
def cW4 : World :=
  { emptyWorld with
    nextMilestoneId := 1
    nextTaskRowId := 1
    milestones := [⟨0, 7, "Intro", 0⟩]
    taskRows := [⟨0, 7, 0, "t", "quiz", 0⟩]
    courseJobs := [⟨"cj4", 7, .pending, cJd4⟩] }

/-- Resumed provider stream for the crashed job: it emits the same outline
again. -/
def cStreams4 : String → List Output :=
  fun _ => [⟨[⟨"Intro", [⟨"c", "d", [⟨"t", "dd", "quiz"⟩]⟩]⟩]⟩]

/-- Sample stamped leaf task. -/
def cST1 : STask := ⟨31, "T1", "d1", "learning_material"⟩

/-- Sample stamped leaf task. -/
def cST2 : STask := ⟨32, "T2", "d2", "quiz"⟩

/-- Sample stamped concept holding the two leaves. -/
def cSC : SConcept := ⟨"Basics", "cd", [cST1, cST2]⟩

/-- Stamped outline of the fan-out scenario: module `Intro` with two leaf
tasks. -/
def cStampedFan : StampedOutline := ⟨[⟨5, "Intro", [cSC]⟩]⟩

/-- Details of a course job whose generation has finished. -/
def cJd5 : JobDetails := ⟨"desc", "aud", "instr", "file-1", some cStampedFan⟩

/-- World holding the finished course job, ready for fan-out. -/
def cW5 : World :=
  { emptyWorld with courseJobs := [⟨"cj5", 7, .pending, cJd5⟩] }

/-- Work unit of the concrete failing worker run. -/
def cU2 : WorkUnit := ⟨cST1, cSC, "file-1", "tj", "cj", 7⟩

/-- World holding one `started` task job and its parent course job. -/
def cW2 : World :=
  { emptyWorld with
    courseJobs := [⟨"cj", 7, .started, cJd⟩]
    taskJobs := [⟨"tj", 31, 7, .started, ⟨cST1, cSC, "file-1", "cj", 7⟩⟩] }

/-- World for the completion-aggregation witness: a parent course job and
two `started` task jobs for course 7. -/
def cW1 : World :=
  { emptyWorld with
    courseJobs := [⟨"cj", 7, .started, cJd⟩]
    taskJobs :=
      [⟨"tjA", 31, 7, .started, ⟨cST1, cSC, "file-1", "cj", 7⟩⟩,
       ⟨"tjB", 32, 7, .started, ⟨cST2, cSC, "file-1", "cj", 7⟩⟩] }

/-- Schedule of the completion-aggregation witness: the two workers'
writes and checks interleaved, each check after its own write. -/
def cActs1 : List FanAction :=
  [.complete "tjA", .check "tjA", .complete "tjB", .check "tjB"]

/-- Outcome function of the batch-runner witnesses: unit 1 fails, the
others succeed. -/
def cOc : Nat → Bool := fun u => u != 1

/-- Terminal scheduler state of the batch-runner witness. -/
def cBatchFinal : BatchState := ⟨[], [], [(1, false), (0, true)]⟩

/-- Mid-run scheduler state of the bounded-concurrency witness: both pool
slots busy. -/
def cBatchMid : BatchState := ⟨[2], [0, 1], []⟩

/-! ## Theorems

Everything below is proof: association-list lemmas, the characterization
of the streaming loop on depth-first chains, and the claim theorems. -/

theorem assocGet_assocSet_self {β : Type} (l : List (Nat × β)) (k : Nat) (v : β) :
    assocGet (assocSet l k v) k = some v := by
  induction l with
  | nil => simp [assocGet, assocSet]
  | cons p rest ih =>
      obtain ⟨k', v'⟩ := p
      by_cases h : k' = k
      · simp [assocSet, h, assocGet]
      · simp [assocSet, h, assocGet, ih]

theorem assocGet_assocSet_ne {β : Type} (l : List (Nat × β)) (k k'' : Nat) (v : β)
    (h : k'' ≠ k) : assocGet (assocSet l k v) k'' = assocGet l k'' := by
  induction l with
  | nil => simp [assocGet, assocSet, Ne.symm h]
  | cons p rest ih =>
      obtain ⟨k', v'⟩ := p
      by_cases hk : k' = k
      · simp [assocSet, assocGet, hk, Ne.symm h]
      · simp [assocSet, assocGet, hk, ih]

theorem assocSet_self_id {β : Type} (l : List (Nat × β)) (k : Nat) (v : β)
    (h : assocGet l k = some v) : assocSet l k v = l := by
  induction l with
  | nil => simp [assocGet] at h
  | cons p rest ih =>
      obtain ⟨k', v'⟩ := p
      by_cases hk : k' = k
      · subst hk
        simp [assocGet] at h
        simp [assocSet, h]
      · simp [assocGet, hk] at h
        simp [assocSet, hk, ih h]

theorem assocSet_assocSet {β : Type} (l : List (Nat × β)) (k : Nat) (v v' : β) :
    assocSet (assocSet l k v) k v' = assocSet l k v' := by
  induction l with
  | nil => simp [assocSet]
  | cons p rest ih =>
      obtain ⟨k', v''⟩ := p
      by_cases hk : k' = k
      · simp [assocSet, hk]
      · simp [assocSet, hk, ih]

theorem assocSet_absent {β : Type} (l : List (Nat × β)) (k : Nat) (v : β)
    (h : assocGet l k = none) : assocSet l k v = l ++ [(k, v)] := by
  induction l with
  | nil => simp [assocSet]
  | cons p rest ih =>
      obtain ⟨k', v'⟩ := p
      by_cases hk : k' = k
      · simp [assocGet, hk] at h
      · simp [assocGet, hk] at h
        simp [assocSet, hk, ih h]

theorem assocGet_append {β : Type} (l₁ l₂ : List (Nat × β)) (k : Nat) :
    assocGet (l₁ ++ l₂) k =
      (match assocGet l₁ k with
       | some v => some v
       | none => assocGet l₂ k) := by
  induction l₁ with
  | nil => simp [assocGet]
  | cons p rest ih =>
      obtain ⟨k', v'⟩ := p
      by_cases hk : k' = k
      · simp [assocGet, hk]
      · simp [assocGet, hk, ih]

theorem assocGet_append_absent {β : Type} (l : List (Nat × β)) (k : Nat) (v : β)
    (h : assocGet l k = none) : assocGet (l ++ [(k, v)]) k = some v := by
  rw [assocGet_append, h]
  simp [assocGet]

theorem assocSet_append_of_absent_left {β : Type} (l₁ : List (Nat × β))
    (k : Nat) (v₀ v : β) (l₂ : List (Nat × β)) (h : assocGet l₁ k = none) :
    assocSet (l₁ ++ (k, v₀) :: l₂) k v = l₁ ++ (k, v) :: l₂ := by
  induction l₁ with
  | nil => simp [assocSet]
  | cons p rest ih =>
      obtain ⟨k', v'⟩ := p
      by_cases hk : k' = k
      · simp [assocGet, hk] at h
      · simp [assocGet, hk] at h
        simp [assocSet, hk, ih h]

/-! ### `module_concepts` access lemmas -/

theorem mcTasks_mcAppend_self (mc : MC) (mid ci tid : Nat) :
    mcTasks (mcAppend mc mid ci tid) mid ci = mcTasks mc mid ci ++ [tid] := by
  unfold mcTasks mcAppend
  rw [assocGet_assocSet_self]
  simp [assocGet_assocSet_self]

theorem mcAppendList_existing (mc : MC) (mid ci : Nat) (inn : Inner) (l : List Nat)
    (tids : List Nat) (hm : assocGet mc mid = some inn)
    (hc : assocGet inn ci = some l) :
    mcAppendList mc mid ci tids = assocSet mc mid (assocSet inn ci (l ++ tids)) := by
  induction tids generalizing mc inn l with
  | nil =>
      show mc = assocSet mc mid (assocSet inn ci (l ++ []))
      rw [List.append_nil, assocSet_self_id inn ci l hc, assocSet_self_id mc mid inn hm]
  | cons tid rest ih =>
      have hstep : mcAppend mc mid ci tid =
          assocSet mc mid (assocSet inn ci (l ++ [tid])) := by
        simp [mcAppend, hm, hc]
      have hm' : assocGet (assocSet mc mid (assocSet inn ci (l ++ [tid]))) mid =
          some (assocSet inn ci (l ++ [tid])) := assocGet_assocSet_self ..
      have hc' : assocGet (assocSet inn ci (l ++ [tid])) ci = some (l ++ [tid]) :=
        assocGet_assocSet_self ..
      calc mcAppendList mc mid ci (tid :: rest)
          = mcAppendList (mcAppend mc mid ci tid) mid ci rest := rfl
        _ = mcAppendList (assocSet mc mid (assocSet inn ci (l ++ [tid]))) mid ci rest := by
              rw [hstep]
        _ = assocSet (assocSet mc mid (assocSet inn ci (l ++ [tid]))) mid
              (assocSet (assocSet inn ci (l ++ [tid])) ci ((l ++ [tid]) ++ rest)) :=
              ih _ _ _ hm' hc'
        _ = assocSet mc mid (assocSet inn ci (l ++ tid :: rest)) := by
              rw [assocSet_assocSet, assocSet_assocSet, List.append_assoc]
              rfl

theorem mcAppendList_newkey (mc : MC) (mid ci : Nat) (inn : Inner)
    (tid : Nat) (rest : List Nat) (hm : assocGet mc mid = some inn)
    (hc : assocGet inn ci = none) :
    mcAppendList mc mid ci (tid :: rest) =
      assocSet mc mid (inn ++ [(ci, tid :: rest)]) := by
  have hstep : mcAppend mc mid ci tid = assocSet mc mid (inn ++ [(ci, [tid])]) := by
    simp [mcAppend, hm, hc, assocSet_absent inn ci _ hc]
  have hm' : assocGet (assocSet mc mid (inn ++ [(ci, [tid])])) mid =
      some (inn ++ [(ci, [tid])]) := assocGet_assocSet_self ..
  have hc' : assocGet (inn ++ [(ci, [tid])]) ci = some [tid] :=
    assocGet_append_absent inn ci [tid] hc
  calc mcAppendList mc mid ci (tid :: rest)
      = mcAppendList (assocSet mc mid (inn ++ [(ci, [tid])])) mid ci rest := by
        show mcAppendList (mcAppend mc mid ci tid) mid ci rest = _
        rw [hstep]
    _ = assocSet (assocSet mc mid (inn ++ [(ci, [tid])])) mid
          (assocSet (inn ++ [(ci, [tid])]) ci ([tid] ++ rest)) :=
          mcAppendList_existing _ _ _ _ _ rest hm' hc'
    _ = assocSet mc mid (inn ++ [(ci, tid :: rest)]) := by
          rw [assocSet_assocSet, assocSet_append_of_absent_left inn ci _ _ _ hc]
          rfl

theorem mcAppendList_newmid (mc : MC) (mid ci : Nat) (tid : Nat) (rest : List Nat)
    (hm : assocGet mc mid = none) :
    mcAppendList mc mid ci (tid :: rest) = mc ++ [(mid, [(ci, tid :: rest)])] := by
  have hstep : mcAppend mc mid ci tid = mc ++ [(mid, [(ci, [tid])])] := by
    simp [mcAppend, hm, assocGet, assocSet, assocSet_absent mc mid _ hm]
  have hm' : assocGet (mc ++ [(mid, [(ci, [tid])])]) mid = some [(ci, [tid])] :=
    assocGet_append_absent mc mid _ hm
  have hc' : assocGet ([(ci, [tid])] : Inner) ci = some [tid] := by
    simp [assocGet]
  calc mcAppendList mc mid ci (tid :: rest)
      = mcAppendList (mc ++ [(mid, [(ci, [tid])])]) mid ci rest := by
        show mcAppendList (mcAppend mc mid ci tid) mid ci rest = _
        rw [hstep]
    _ = assocSet (mc ++ [(mid, [(ci, [tid])])]) mid
          (assocSet [(ci, [tid])] ci ([tid] ++ rest)) :=
          mcAppendList_existing _ _ _ _ _ rest hm' hc'
    _ = mc ++ [(mid, [(ci, tid :: rest)])] := by
          rw [assocSet_append_of_absent_left mc mid _ _ _ hm]
          simp [assocSet]

/-! ### The task loop beyond its dedup cursor -/

theorem processTasksFrom_spec (cid mid ci : Nat) (ts : List Task) :
    ∀ (ti : Nat) (s : GenSt), tasksValid ts = true →
    processTasksFrom cid mid ci ti ts s =
      createTasksFold cid mid ci
        (ts.drop ((mcTasks s.module_concepts mid ci).length - ti)) s := by
  induction ts with
  | nil => intro ti s _; simp [processTasksFrom, createTasksFold]
  | cons t rest ih =>
      intro ti s hv
      have hv' := hv
      simp only [tasksValid, List.all_cons, Bool.and_eq_true] at hv'
      have hvt : taskValid t = true := hv'.1
      have hvr : tasksValid rest = true := hv'.2
      by_cases hR : (mcTasks s.module_concepts mid ci).length ≤ ti
      · rw [processTasksFrom, if_pos ⟨hvt, hR⟩]
        rw [ih (ti + 1) _ hvr]
        have hlen : (mcTasks (createDraftTask cid mid ci t s).module_concepts mid ci).length
            = (mcTasks s.module_concepts mid ci).length + 1 := by
          show (mcTasks (mcAppend s.module_concepts mid ci s.world.nextTaskRowId) mid ci).length = _
          rw [mcTasks_mcAppend_self]
          simp
        rw [hlen]
        have h0 : (mcTasks s.module_concepts mid ci).length - ti = 0 :=
          Nat.sub_eq_zero_of_le hR
        have h0' : (mcTasks s.module_concepts mid ci).length + 1 - (ti + 1) = 0 := by omega
        rw [h0, h0']
        rfl
      · rw [processTasksFrom, if_neg (by
          intro hcon
          exact hR hcon.2)]
        rw [ih (ti + 1) s hvr]
        have hlt : ti < (mcTasks s.module_concepts mid ci).length := Nat.lt_of_not_le hR
        have : (mcTasks s.module_concepts mid ci).length - ti =
            ((mcTasks s.module_concepts mid ci).length - (ti + 1)) + 1 := by omega
        rw [this]
        rfl

theorem taskRowCount_append (l : List TaskRow) (r : TaskRow) (rest : List TaskRow)
    (cid : Nat) (h : r.course_id = cid) :
    ((l ++ r :: rest).filter (fun x => x.course_id == cid)).length =
      ((l ++ rest).filter (fun x => x.course_id == cid)).length + 1 := by
  simp [List.filter_append, List.filter_cons, h]
  omega

theorem createTasksFold_closed (cid mid ci : Nat) (ts : List Task) : ∀ (s : GenSt),
    createTasksFold cid mid ci ts s =
      { module_ids := s.module_ids
        module_concepts := mcAppendList s.module_concepts mid ci
          (idRange s.world.nextTaskRowId ts.length)
        world := { s.world with
          nextTaskRowId := s.world.nextTaskRowId + ts.length
          taskRows := s.world.taskRows ++
            taskRowsFor cid mid s.world.nextTaskRowId (taskRowCount s.world cid) ts
          events := s.world.events ++
            taskEventsFor cid mid s.world.nextTaskRowId (taskRowCount s.world cid) ts } } := by
  induction ts with
  | nil =>
      intro s
      simp [createTasksFold, mcAppendList, idRange, taskRowsFor, taskEventsFor]
  | cons t rest ih =>
      intro s
      have hstep : createTasksFold cid mid ci (t :: rest) s =
          createTasksFold cid mid ci rest (createDraftTask cid mid ci t s) := rfl
      rw [hstep, ih]
      have hcount : taskRowCount (createDraftTask cid mid ci t s).world cid =
          taskRowCount s.world cid + 1 := by
        simp [createDraftTask, create_draft_task_for_course, taskRowCount,
          List.filter_append, List.filter_cons]
      rw [hcount]
      simp [createDraftTask, create_draft_task_for_course, mcAppendList, idRange,
        taskRowsFor, taskEventsFor, taskRowCount, Nat.add_assoc, Nat.add_comm,
        Nat.add_left_comm]

/-! ### Arithmetic of canonical structures -/

theorem idRange_length (a n : Nat) : (idRange a n).length = n := by
  induction n generalizing a with
  | zero => rfl
  | succ n ih => simp [idRange, ih]

theorem idRange_append (a n m : Nat) :
    idRange a n ++ idRange (a + n) m = idRange a (n + m) := by
  induction n generalizing a with
  | zero => simp [idRange]
  | succ n ih =>
      have h1 : a + (n + 1) = (a + 1) + n := by omega
      simp only [idRange, List.cons_append, h1]
      rw [ih (a + 1)]
      have h2 : n + 1 + m = n + m + 1 := by omega
      rw [h2]
      simp [idRange]

theorem tasksLen_append (xs ys : List Concept) :
    tasksLen (xs ++ ys) = tasksLen xs + tasksLen ys := by
  simp [tasksLen]

theorem tasksLen_cons (c : Concept) (cs : List Concept) :
    tasksLen (c :: cs) = c.tasks.length + tasksLen cs := by
  simp [tasksLen]

theorem dfsTasks_append (xs ys : List Module) :
    dfsTasks (xs ++ ys) = dfsTasks xs ++ dfsTasks ys := by
  simp [dfsTasks]

theorem tasksOf_eq_tasksLen (m : Module) : (tasksOf m).length = tasksLen m.concepts := by
  simp [tasksOf, tasksLen]

theorem drop_append_of_length (xs ys : List α) (k : Nat) :
    (xs ++ ys).drop (xs.length + k) = ys.drop k := by
  induction xs with
  | nil => simp
  | cons x rest ih =>
      simp only [List.cons_append, List.length_cons]
      have : rest.length + 1 + k = (rest.length + k) + 1 := by omega
      rw [this]
      simp only [List.drop_succ_cons]
      exact ih

theorem canonInnerAux_length (tb ci : Nat) (cs : List Concept) :
    (canonInnerAux tb ci cs).length = cs.length := by
  induction cs generalizing tb ci with
  | nil => rfl
  | cons c rest ih => simp [canonInnerAux, ih]

theorem canonInnerAux_key_lt (tb ci : Nat) (cs : List Concept) :
    ∀ p ∈ canonInnerAux tb ci cs, ci ≤ p.1 ∧ p.1 < ci + cs.length := by
  induction cs generalizing tb ci with
  | nil => intro p hp; simp [canonInnerAux] at hp
  | cons c rest ih =>
      intro p hp
      simp only [canonInnerAux, List.mem_cons] at hp
      rcases hp with h | h
      · subst h; simp
      · have := ih (tb + c.tasks.length) (ci + 1) p h
        constructor
        · omega
        · simp only [List.length_cons]; omega

theorem assocGet_canonInnerAux_ge (tb ci : Nat) (cs : List Concept) (k : Nat)
    (h : ci + cs.length ≤ k) : assocGet (canonInnerAux tb ci cs) k = none := by
  induction cs generalizing tb ci with
  | nil => rfl
  | cons c rest ih =>
      simp only [canonInnerAux, assocGet]
      rw [if_neg (by simp only [List.length_cons] at h; omega)]
      exact ih (tb + c.tasks.length) (ci + 1) (by simp only [List.length_cons] at h; omega)

theorem canonInnerAux_append (tb ci : Nat) (xs ys : List Concept) :
    canonInnerAux tb ci (xs ++ ys) =
      canonInnerAux tb ci xs ++ canonInnerAux (tb + tasksLen xs) (ci + xs.length) ys := by
  induction xs generalizing tb ci with
  | nil => simp [canonInnerAux, tasksLen]
  | cons c rest ih =>
      simp only [List.cons_append, canonInnerAux, List.length_cons, List.append_eq]
      rw [ih]
      have h1 : tb + c.tasks.length + tasksLen rest = tb + tasksLen (c :: rest) := by
        rw [tasksLen_cons]; omega
      have h2 : ci + 1 + rest.length = ci + (rest.length + 1) := by omega
      rw [h1, h2]

theorem assocGet_canonInnerAux_last (tb : Nat) (cpre : List Concept) (c : Concept) :
    assocGet (canonInnerAux tb 0 (cpre ++ [c])) cpre.length =
      some (idRange (tb + tasksLen cpre) c.tasks.length) := by
  rw [canonInnerAux_append, assocGet_append]
  rw [assocGet_canonInnerAux_ge tb 0 cpre cpre.length (by omega)]
  simp [canonInnerAux, assocGet]

theorem canonMCAux_length (mb tb : Nat) (ms : List Module) :
    (canonMCAux mb tb ms).length = ms.length := by
  induction ms generalizing mb tb with
  | nil => rfl
  | cons m rest ih => simp [canonMCAux, ih]

theorem assocGet_canonMCAux_ge (mb tb : Nat) (ms : List Module) (k : Nat)
    (h : mb + ms.length ≤ k) : assocGet (canonMCAux mb tb ms) k = none := by
  induction ms generalizing mb tb with
  | nil => rfl
  | cons m rest ih =>
      simp only [canonMCAux, assocGet]
      rw [if_neg (by simp only [List.length_cons] at h; omega)]
      exact ih (mb + 1) _ (by simp only [List.length_cons] at h; omega)

theorem canonMCAux_append (mb tb : Nat) (xs ys : List Module) :
    canonMCAux mb tb (xs ++ ys) =
      canonMCAux mb tb xs ++
        canonMCAux (mb + xs.length) (tb + (dfsTasks xs).length) ys := by
  induction xs generalizing mb tb with
  | nil => simp [canonMCAux, dfsTasks]
  | cons m rest ih =>
      simp only [List.cons_append, canonMCAux, List.length_cons, List.append_eq]
      rw [ih]
      have h1 : mb + 1 + rest.length = mb + (rest.length + 1) := by omega
      have h2 : tb + (tasksOf m).length + (dfsTasks rest).length =
          tb + (dfsTasks (m :: rest)).length := by
        simp [dfsTasks]; omega
      rw [h1, h2]

theorem assocGet_canonMCAux_at (mb tb : Nat) (mpre : List Module) (m : Module)
    (mrest : List Module) :
    assocGet (canonMCAux mb tb (mpre ++ m :: mrest)) (mb + mpre.length) =
      some (canonInnerAux (tb + (dfsTasks mpre).length) 0 m.concepts) := by
  rw [canonMCAux_append, assocGet_append]
  rw [assocGet_canonMCAux_ge mb tb mpre (mb + mpre.length) (by omega)]
  simp [canonMCAux, assocGet]

theorem idRange_getD (a n i : Nat) (h : i < n) :
    (idRange a n).getD i 0 = a + i := by
  induction n generalizing a i with
  | zero => omega
  | succ n ih =>
      cases i with
      | zero => simp [idRange]
      | succ i =>
          simp only [idRange, List.getD_cons_succ]
          rw [ih (a + 1) i (by omega)]
          omega

theorem idRange_get? (a n i : Nat) :
    (idRange a n).get? i = if i < n then some (a + i) else none := by
  induction n generalizing a i with
  | zero => simp [idRange]
  | succ n ih =>
      cases i with
      | zero => simp [idRange]
      | succ i =>
          simp only [idRange, List.get?_cons_succ]
          rw [ih (a + 1) i]
          by_cases h : i < n
          · rw [if_pos h, if_pos (by omega)]
            congr 1
            omega
          · rw [if_neg h, if_neg (by omega)]

theorem taskRowsFor_append (cid mid tb tob : Nat) (xs ys : List Task) :
    taskRowsFor cid mid tb tob (xs ++ ys) =
      taskRowsFor cid mid tb tob xs ++
        taskRowsFor cid mid (tb + xs.length) (tob + xs.length) ys := by
  induction xs generalizing tb tob with
  | nil => simp [taskRowsFor]
  | cons x rest ih =>
      simp only [List.cons_append, taskRowsFor, List.length_cons, List.append_eq]
      rw [ih]
      have h1 : tb + 1 + rest.length = tb + (rest.length + 1) := by omega
      have h2 : tob + 1 + rest.length = tob + (rest.length + 1) := by omega
      rw [h1, h2]

theorem taskEventsFor_append (cid mid tb tob : Nat) (xs ys : List Task) :
    taskEventsFor cid mid tb tob (xs ++ ys) =
      taskEventsFor cid mid tb tob xs ++
        taskEventsFor cid mid (tb + xs.length) (tob + xs.length) ys := by
  induction xs generalizing tb tob with
  | nil => simp [taskEventsFor]
  | cons x rest ih =>
      simp only [List.cons_append, taskEventsFor, List.length_cons, List.append_eq]
      rw [ih]
      have h1 : tb + 1 + rest.length = tb + (rest.length + 1) := by omega
      have h2 : tob + 1 + rest.length = tob + (rest.length + 1) := by omega
      rw [h1, h2]

theorem taskRowsFor_count (cid mid tb tob : Nat) (ts : List Task) :
    ((taskRowsFor cid mid tb tob ts).filter (fun r => r.course_id == cid)).length =
      ts.length := by
  induction ts generalizing tb tob with
  | nil => simp [taskRowsFor]
  | cons t rest ih => simp [taskRowsFor, List.filter_cons, ih]

/-! ### Depth-first extension lemmas -/

theorem tailExt_cases {α : Type} [DecidableEq α] (ext : α → α → Bool)
    (l l' : List α) (h : tailExt ext l l' = true) :
    l = [] ∨ ∃ pre a b rest, l = pre ++ [a] ∧ l' = pre ++ b :: rest ∧ ext a b = true := by
  induction l generalizing l' with
  | nil => exact Or.inl rfl
  | cons x xs ih =>
      cases l' with
      | nil => simp [tailExt] at h
      | cons y ys =>
          cases xs with
          | nil =>
              simp only [tailExt] at h
              exact Or.inr ⟨[], x, y, ys, by simp, by simp, h⟩
          | cons z zs =>
              simp only [tailExt, Bool.and_eq_true, decide_eq_true_eq] at h
              rcases ih ys h.2 with h0 | ⟨pre, a, b, rest, h1, h2, h3⟩
              · exact absurd h0 (by simp)
              · exact Or.inr ⟨x :: pre, a, b, rest, by simp [h1, h.1],
                  by simp [h2, h.1], h3⟩

theorem tailExt_eq_take {α : Type} [DecidableEq α] (l l' : List α)
    (h : tailExt (fun a b => decide (a = b)) l l' = true) :
    l'.take l.length = l ∧ l.length ≤ l'.length := by
  induction l generalizing l' with
  | nil => simp
  | cons x xs ih =>
      cases l' with
      | nil => simp [tailExt] at h
      | cons y ys =>
          cases xs with
          | nil =>
              simp only [tailExt, decide_eq_true_eq] at h
              subst h
              simp
          | cons z zs =>
              simp only [tailExt, Bool.and_eq_true, decide_eq_true_eq] at h
              obtain ⟨hxy, hrest⟩ := h
              obtain ⟨h1, h2⟩ := ih ys hrest
              subst hxy
              simp only [List.length_cons] at h1 h2
              refine ⟨?_, ?_⟩
              · simp only [List.length_cons, List.take_succ_cons, h1]
              · simp only [List.length_cons]
                omega

theorem conceptExt_take (c c' : Concept) (h : conceptExt c c' = true) :
    c'.tasks.take c.tasks.length = c.tasks ∧ c.tasks.length ≤ c'.tasks.length := by
  simp only [conceptExt, Bool.and_eq_true, decide_eq_true_eq] at h
  exact tailExt_eq_take _ _ h.2

theorem tailExt_eq_refl {α : Type} [DecidableEq α] :
    ∀ l : List α, tailExt (fun a b => decide (a = b)) l l = true
  | [] => rfl
  | [a] => by simp [tailExt]
  | a :: b :: rest => by
      have ih := tailExt_eq_refl (b :: rest)
      rw [show tailExt (fun a b => decide (a = b)) (a :: b :: rest) (a :: b :: rest) =
        (decide (a = a) && tailExt (fun a b => decide (a = b)) (b :: rest) (b :: rest))
        from rfl, ih]
      simp

theorem conceptExt_refl (c : Concept) : conceptExt c c = true := by
  simp [conceptExt, tailExt_eq_refl]

/-! ### Well-formedness destructors -/

theorem moduleWF_valid (m : Module) (h : moduleWF m = true) : moduleValid m = true := by
  simp only [moduleWF, Bool.and_eq_true] at h
  exact h.1

theorem moduleWF_concepts (m : Module) (h : moduleWF m = true) :
    ∀ c ∈ m.concepts, conceptWF c = true := by
  simp only [moduleWF, Bool.and_eq_true, List.all_eq_true] at h
  exact h.2

theorem moduleWF_concepts_ne (m : Module) (h : moduleWF m = true) :
    m.concepts ≠ [] := by
  have := moduleWF_valid m h
  simp only [moduleValid, Bool.and_eq_true, Bool.not_eq_true'] at this
  simpa [List.isEmpty_iff] using this.2

theorem conceptWF_valid (c : Concept) (h : conceptWF c = true) :
    conceptValid c = true := by
  simp only [conceptWF, Bool.and_eq_true] at h
  exact h.1

theorem conceptWF_tasks (c : Concept) (h : conceptWF c = true) :
    tasksValid c.tasks = true := by
  simp only [conceptWF, Bool.and_eq_true] at h
  exact h.2

/-! ### Concept-loop characterization -/

theorem processConceptsFrom_append (cid mid : Nat) (xs : List Concept) :
    ∀ (ys : List Concept) (ci : Nat) (s : GenSt),
    processConceptsFrom cid mid ci (xs ++ ys) s =
      processConceptsFrom cid mid (ci + xs.length) ys
        (processConceptsFrom cid mid ci xs s) := by
  induction xs with
  | nil => intro ys ci s; simp [processConceptsFrom]
  | cons c rest ih =>
      intro ys ci s
      simp only [List.cons_append, processConceptsFrom, List.length_cons,
        List.append_eq]
      have harith : ci + 1 + rest.length = ci + (rest.length + 1) := by omega
      by_cases h : conceptValid c = true ∧ ¬ ci < mcKeyCount s.module_concepts mid - 1
      · rw [if_pos h, if_pos h, ih, harith]
      · rw [if_neg h, if_neg h, ih, harith]

theorem processModulesFrom_append (cid : Nat) (xs : List Module) :
    ∀ (ys : List Module) (i : Nat) (s : GenSt),
    processModulesFrom cid i (xs ++ ys) s =
      processModulesFrom cid (i + xs.length) ys (processModulesFrom cid i xs s) := by
  induction xs with
  | nil => intro ys i s; simp [processModulesFrom]
  | cons m rest ih =>
      intro ys i s
      simp only [List.cons_append, processModulesFrom, List.length_cons,
        List.append_eq]
      have harith : i + 1 + rest.length = i + (rest.length + 1) := by omega
      by_cases hv : moduleValid m = true
      · rw [if_pos hv, if_pos hv]
        by_cases hl : s.module_ids.length ≤ i
        · rw [if_pos hl, if_pos hl, ih, harith]
        · rw [if_neg hl, if_neg hl, ih, harith]
      · rw [if_neg hv, if_neg hv, ih, harith]

theorem processConceptsFrom_skip (cid mid : Nat) (cs : List Concept) :
    ∀ (ci : Nat) (s : GenSt), ci + cs.length < mcKeyCount s.module_concepts mid →
    processConceptsFrom cid mid ci cs s = s := by
  induction cs with
  | nil => intro ci s _; rfl
  | cons c rest ih =>
      intro ci s h
      simp only [List.length_cons] at h
      have hlt : ci < mcKeyCount s.module_concepts mid - 1 := by omega
      simp only [processConceptsFrom]
      rw [if_neg (fun hcon => hcon.2 hlt)]
      exact ih (ci + 1) s (by omega)

theorem processConceptsFrom_fresh (cid mid : Nat) (crest : List Concept) :
    ∀ (csDone : List Concept) (tb : Nat) (s : GenSt),
    (∀ c ∈ crest, conceptWF c = true) →
    ((csDone = [] ∧ assocGet s.module_concepts mid = none ∧ crest ≠ []) ∨
      (csDone ≠ [] ∧ assocGet s.module_concepts mid =
        some (canonInnerAux tb 0 csDone))) →
    s.world.nextTaskRowId = tb + tasksLen csDone →
    processConceptsFrom cid mid csDone.length crest s =
      { module_ids := s.module_ids
        module_concepts := assocSet s.module_concepts mid
          (canonInnerAux tb 0 (csDone ++ crest))
        world := { s.world with
          nextTaskRowId := tb + tasksLen (csDone ++ crest)
          taskRows := s.world.taskRows ++ taskRowsFor cid mid
            (tb + tasksLen csDone) (taskRowCount s.world cid)
            (crest.flatMap (·.tasks))
          events := s.world.events ++ taskEventsFor cid mid
            (tb + tasksLen csDone) (taskRowCount s.world cid)
            (crest.flatMap (·.tasks)) } } := by
  induction crest with
  | nil =>
      intro csDone tb s _ hinn hctr
      rcases hinn with ⟨_, _, habs⟩ | ⟨_, hp⟩
      · exact absurd rfl habs
      · show s = _
        rw [List.append_nil, assocSet_self_id _ _ _ hp]
        simp [taskRowsFor, taskEventsFor, ← hctr]
  | cons c crest' ih =>
      intro csDone tb s hwf hinn hctr
      have hwfc : conceptWF c = true := hwf c (by simp)
      have hK : mcKeyCount s.module_concepts mid = csDone.length := by
        rcases hinn with ⟨hd, habs, _⟩ | ⟨_, hp⟩
        · simp [mcKeyCount, habs, hd]
        · simp [mcKeyCount, hp, canonInnerAux_length]
      have hcond : conceptValid c = true ∧
          ¬ csDone.length < mcKeyCount s.module_concepts mid - 1 := by
        refine ⟨conceptWF_valid c hwfc, ?_⟩
        rw [hK]
        omega
      simp only [processConceptsFrom]
      rw [if_pos hcond]
      have hR : mcTasks s.module_concepts mid csDone.length = [] := by
        rcases hinn with ⟨_, habs, _⟩ | ⟨_, hp⟩
        · simp [mcTasks, habs, assocGet]
        · simp [mcTasks, hp]
          rw [assocGet_canonInnerAux_ge tb 0 csDone csDone.length (by omega)]
          rfl
      rw [processTasksFrom_spec cid mid csDone.length c.tasks 0 s
        (conceptWF_tasks c hwfc)]
      rw [hR]
      simp only [List.length_nil, Nat.zero_sub, List.drop_zero]
      rw [createTasksFold_closed]
      obtain ⟨t0, ts0, hts⟩ : ∃ t0 ts0, c.tasks = t0 :: ts0 := by
        have hv := conceptWF_valid c hwfc
        cases hcc : c.tasks with
        | nil => simp [conceptValid, hcc] at hv
        | cons a b => exact ⟨a, b, rfl⟩
      have hidr : idRange s.world.nextTaskRowId c.tasks.length =
          s.world.nextTaskRowId :: idRange (s.world.nextTaskRowId + 1) ts0.length := by
        rw [hts]; rfl
      have hs1mc : mcAppendList s.module_concepts mid csDone.length
          (idRange s.world.nextTaskRowId c.tasks.length) =
          assocSet s.module_concepts mid (canonInnerAux tb 0 (csDone ++ [c])) := by
        rcases hinn with ⟨hd, habs, _⟩ | ⟨_, hp⟩
        · subst hd
          have hnid : s.world.nextTaskRowId = tb := by
            simpa [tasksLen] using hctr
          rw [hidr, mcAppendList_newmid _ _ _ _ _ habs, assocSet_absent _ _ _ habs]
          congr 2
          rw [show canonInnerAux tb 0 ([] ++ [c]) =
            [(0, idRange tb c.tasks.length)] by simp [canonInnerAux]]
          rw [← hnid, hidr]
          simp
        · have hmcl := mcAppendList_newkey s.module_concepts mid csDone.length _
            s.world.nextTaskRowId (idRange (s.world.nextTaskRowId + 1) ts0.length) hp
            (assocGet_canonInnerAux_ge tb 0 csDone csDone.length (by omega))
          rw [hidr, hmcl, ← hidr]
          congr 1
          rw [canonInnerAux_append, hctr]
          simp [canonInnerAux]
      set s1 : GenSt :=
        { module_ids := s.module_ids
          module_concepts := mcAppendList s.module_concepts mid csDone.length
            (idRange s.world.nextTaskRowId c.tasks.length)
          world := { s.world with
            nextTaskRowId := s.world.nextTaskRowId + c.tasks.length
            taskRows := s.world.taskRows ++ taskRowsFor cid mid
              s.world.nextTaskRowId (taskRowCount s.world cid) c.tasks
            events := s.world.events ++ taskEventsFor cid mid
              s.world.nextTaskRowId (taskRowCount s.world cid) c.tasks } } with hs1
      have hinn1 : assocGet s1.module_concepts mid =
          some (canonInnerAux tb 0 (csDone ++ [c])) := by
        rw [hs1]
        simp only [hs1mc]
        exact assocGet_assocSet_self ..
      have hctr1 : s1.world.nextTaskRowId = tb + tasksLen (csDone ++ [c]) := by
        rw [hs1]
        simp only [hctr, tasksLen_append]
        simp [tasksLen]
        omega
      have hlen1 : (csDone ++ [c]).length = csDone.length + 1 := by simp
      have hcount1 : taskRowCount s1.world cid = taskRowCount s.world cid +
          c.tasks.length := by
        rw [hs1]
        simp only [taskRowCount, List.filter_append, List.length_append]
        rw [taskRowsFor_count]
      have := ih (csDone ++ [c]) tb s1
        (fun x hx => hwf x (by simp [hx]))
        (Or.inr ⟨by simp, hinn1⟩) hctr1
      rw [hlen1] at this
      rw [this]
      have hmc2 : assocSet s1.module_concepts mid
          (canonInnerAux tb 0 ((csDone ++ [c]) ++ crest')) =
          assocSet s.module_concepts mid
            (canonInnerAux tb 0 (csDone ++ c :: crest')) := by
        rw [hs1]
        simp only [hs1mc]
        rw [assocSet_assocSet]
        congr 1
        simp
      rw [hmc2, hcount1]
      have hrows : s1.world.taskRows ++ taskRowsFor cid mid
          (tb + tasksLen (csDone ++ [c]))
          (taskRowCount s.world cid + c.tasks.length) (crest'.flatMap (·.tasks)) =
          s.world.taskRows ++ taskRowsFor cid mid (tb + tasksLen csDone)
            (taskRowCount s.world cid) ((c :: crest').flatMap (·.tasks)) := by
        rw [hs1]
        simp only [List.append_assoc, List.flatMap_cons]
        congr 1
        rw [taskRowsFor_append, hctr]
        congr 2
        rw [tasksLen_append]
        simp [tasksLen]
        omega
      have hevs : s1.world.events ++ taskEventsFor cid mid
          (tb + tasksLen (csDone ++ [c]))
          (taskRowCount s.world cid + c.tasks.length) (crest'.flatMap (·.tasks)) =
          s.world.events ++ taskEventsFor cid mid (tb + tasksLen csDone)
            (taskRowCount s.world cid) ((c :: crest').flatMap (·.tasks)) := by
        rw [hs1]
        simp only [List.append_assoc, List.flatMap_cons]
        congr 1
        rw [taskEventsFor_append, hctr]
        congr 2
        rw [tasksLen_append]
        simp [tasksLen]
        omega
      have hnid : tb + tasksLen ((csDone ++ [c]) ++ crest') =
          tb + tasksLen (csDone ++ c :: crest') := by
        congr 1
        simp [tasksLen]
      rw [hs1] at hrows hevs ⊢
      simp only [hrows, hevs, hnid]

theorem tasksLen_singleton (c : Concept) : tasksLen [c] = c.tasks.length := by
  simp [tasksLen]

theorem processConceptsFrom_noop (cid mid : Nat) (cpre : List Concept) (c : Concept)
    (tb : Nat) (s : GenSt)
    (hwf : conceptWF c = true)
    (hinn : assocGet s.module_concepts mid = some (canonInnerAux tb 0 (cpre ++ [c]))) :
    processConceptsFrom cid mid 0 (cpre ++ [c]) s = s := by
  have hK : mcKeyCount s.module_concepts mid = cpre.length + 1 := by
    simp [mcKeyCount, hinn, canonInnerAux_length]
  rw [processConceptsFrom_append]
  rw [processConceptsFrom_skip cid mid cpre 0 s (by rw [hK]; omega)]
  simp only [Nat.zero_add]
  simp only [processConceptsFrom]
  rw [if_pos ⟨conceptWF_valid c hwf, by rw [hK]; omega⟩]
  rw [processTasksFrom_spec cid mid cpre.length c.tasks 0 s (conceptWF_tasks c hwf)]
  have hRlist : mcTasks s.module_concepts mid cpre.length =
      idRange (tb + tasksLen cpre) c.tasks.length := by
    simp [mcTasks, hinn, assocGet_canonInnerAux_last]
  rw [hRlist, idRange_length]
  simp [createTasksFold, processConceptsFrom]

theorem processConceptsFrom_extendLast (cid mid : Nat) (cpre : List Concept)
    (c c' : Concept) (crest : List Concept) (tb : Nat) (s : GenSt)
    (hwf : ∀ x ∈ c' :: crest, conceptWF x = true)
    (hext : conceptExt c c' = true)
    (hinn : assocGet s.module_concepts mid = some (canonInnerAux tb 0 (cpre ++ [c])))
    (hctr : s.world.nextTaskRowId = tb + tasksLen (cpre ++ [c])) :
    processConceptsFrom cid mid 0 (cpre ++ c' :: crest) s =
      { module_ids := s.module_ids
        module_concepts := assocSet s.module_concepts mid
          (canonInnerAux tb 0 (cpre ++ c' :: crest))
        world := { s.world with
          nextTaskRowId := tb + tasksLen (cpre ++ c' :: crest)
          taskRows := s.world.taskRows ++ taskRowsFor cid mid
            (tb + tasksLen (cpre ++ [c])) (taskRowCount s.world cid)
            (((cpre ++ c' :: crest).flatMap (·.tasks)).drop (tasksLen (cpre ++ [c])))
          events := s.world.events ++ taskEventsFor cid mid
            (tb + tasksLen (cpre ++ [c])) (taskRowCount s.world cid)
            (((cpre ++ c' :: crest).flatMap (·.tasks)).drop (tasksLen (cpre ++ [c]))) } } := by
  obtain ⟨htake, hle⟩ := conceptExt_take c c' hext
  have hwfc' : conceptWF c' = true := hwf c' (by simp)
  have hK : mcKeyCount s.module_concepts mid = cpre.length + 1 := by
    simp [mcKeyCount, hinn, canonInnerAux_length]
  have htlen : tasksLen (cpre ++ [c]) = tasksLen cpre + c.tasks.length := by
    rw [tasksLen_append, tasksLen_singleton]
  rw [processConceptsFrom_append]
  rw [processConceptsFrom_skip cid mid cpre 0 s (by rw [hK]; omega)]
  simp only [Nat.zero_add]
  simp only [processConceptsFrom]
  rw [if_pos ⟨conceptWF_valid c' hwfc', by rw [hK]; omega⟩]
  rw [processTasksFrom_spec cid mid cpre.length c'.tasks 0 s (conceptWF_tasks c' hwfc')]
  have hRlist : mcTasks s.module_concepts mid cpre.length =
      idRange (tb + tasksLen cpre) c.tasks.length := by
    simp [mcTasks, hinn, assocGet_canonInnerAux_last]
  rw [hRlist, idRange_length]
  simp only [Nat.sub_zero]
  rw [createTasksFold_closed]
  have hinner : assocGet (canonInnerAux tb 0 (cpre ++ [c])) cpre.length =
      some (idRange (tb + tasksLen cpre) c.tasks.length) :=
    assocGet_canonInnerAux_last tb cpre c
  have hmcl := mcAppendList_existing s.module_concepts mid cpre.length _ _
    (idRange s.world.nextTaskRowId (c'.tasks.drop c.tasks.length).length) hinn hinner
  have hmerge : idRange (tb + tasksLen cpre) c.tasks.length ++
      idRange s.world.nextTaskRowId (c'.tasks.drop c.tasks.length).length =
      idRange (tb + tasksLen cpre) c'.tasks.length := by
    have h1 : s.world.nextTaskRowId = (tb + tasksLen cpre) + c.tasks.length := by
      rw [hctr, htlen]; omega
    rw [h1, idRange_append]
    congr 1
    simp only [List.length_drop]
    omega
  have habsent : assocGet (canonInnerAux tb 0 cpre) cpre.length = none :=
    assocGet_canonInnerAux_ge tb 0 cpre cpre.length (by omega)
  have hsetinner : assocSet (canonInnerAux tb 0 (cpre ++ [c])) cpre.length
      (idRange (tb + tasksLen cpre) c'.tasks.length) =
      canonInnerAux tb 0 (cpre ++ [c']) := by
    rw [canonInnerAux_append, canonInnerAux_append]
    simp only [canonInnerAux, Nat.zero_add]
    rw [assocSet_append_of_absent_left _ _ _ _ _ habsent]
  set s1 : GenSt :=
    { module_ids := s.module_ids
      module_concepts := mcAppendList s.module_concepts mid cpre.length
        (idRange s.world.nextTaskRowId (c'.tasks.drop c.tasks.length).length)
      world := { s.world with
        nextTaskRowId := s.world.nextTaskRowId + (c'.tasks.drop c.tasks.length).length
        taskRows := s.world.taskRows ++ taskRowsFor cid mid s.world.nextTaskRowId
          (taskRowCount s.world cid) (c'.tasks.drop c.tasks.length)
        events := s.world.events ++ taskEventsFor cid mid s.world.nextTaskRowId
          (taskRowCount s.world cid) (c'.tasks.drop c.tasks.length) } } with hs1
  have hinn1 : assocGet s1.module_concepts mid =
      some (canonInnerAux tb 0 (cpre ++ [c'])) := by
    rw [hs1]
    simp only [hmcl, hmerge, hsetinner]
    exact assocGet_assocSet_self ..
  have hctr1 : s1.world.nextTaskRowId = tb + tasksLen (cpre ++ [c']) := by
    rw [hs1]
    simp only [hctr, htlen, tasksLen_append, tasksLen_singleton, List.length_drop]
    omega
  have hcount1 : taskRowCount s1.world cid =
      taskRowCount s.world cid + (c'.tasks.drop c.tasks.length).length := by
    rw [hs1]
    simp only [taskRowCount, List.filter_append, List.length_append]
    rw [taskRowsFor_count]
  have hfresh := processConceptsFrom_fresh cid mid crest (cpre ++ [c']) tb s1
    (fun x hx => hwf x (by simp [hx])) (Or.inr ⟨by simp, hinn1⟩) hctr1
  rw [show (cpre ++ [c']).length = cpre.length + 1 by simp] at hfresh
  rw [hfresh]
  have hdelta : ((cpre ++ c' :: crest).flatMap (·.tasks)).drop (tasksLen (cpre ++ [c])) =
      c'.tasks.drop c.tasks.length ++ crest.flatMap (·.tasks) := by
    rw [List.flatMap_append, List.flatMap_cons, htlen]
    have hxs : tasksLen cpre = (cpre.flatMap (·.tasks)).length := rfl
    rw [hxs, drop_append_of_length]
    rw [List.drop_append_of_le_length hle]
  have harith2 : tb + tasksLen (cpre ++ [c']) =
      s.world.nextTaskRowId + (c'.tasks.drop c.tasks.length).length := by
    rw [hctr, htlen, tasksLen_append, tasksLen_singleton, List.length_drop]
    omega
  have hmc2 : assocSet s1.module_concepts mid
      (canonInnerAux tb 0 ((cpre ++ [c']) ++ crest)) =
      assocSet s.module_concepts mid (canonInnerAux tb 0 (cpre ++ c' :: crest)) := by
    rw [hs1]
    simp only [hmcl, hmerge, hsetinner]
    rw [assocSet_assocSet]
    congr 2
    simp
  have hnid2 : tb + tasksLen ((cpre ++ [c']) ++ crest) =
      tb + tasksLen (cpre ++ c' :: crest) := by
    congr 1
    simp [tasksLen]
  have hrows : s1.world.taskRows ++ taskRowsFor cid mid (tb + tasksLen (cpre ++ [c']))
      (taskRowCount s1.world cid) (crest.flatMap (·.tasks)) =
      s.world.taskRows ++ taskRowsFor cid mid (tb + tasksLen (cpre ++ [c]))
        (taskRowCount s.world cid)
        (((cpre ++ c' :: crest).flatMap (·.tasks)).drop (tasksLen (cpre ++ [c]))) := by
    rw [hcount1, harith2, hdelta, ← hctr, hs1]
    simp only [List.append_assoc]
    congr 1
    rw [taskRowsFor_append]
  have hevs : s1.world.events ++ taskEventsFor cid mid (tb + tasksLen (cpre ++ [c']))
      (taskRowCount s1.world cid) (crest.flatMap (·.tasks)) =
      s.world.events ++ taskEventsFor cid mid (tb + tasksLen (cpre ++ [c]))
        (taskRowCount s.world cid)
        (((cpre ++ c' :: crest).flatMap (·.tasks)).drop (tasksLen (cpre ++ [c]))) := by
    rw [hcount1, harith2, hdelta, ← hctr, hs1]
    simp only [List.append_assoc]
    congr 1
    rw [taskEventsFor_append]
  rw [hmc2, hnid2, hrows, hevs, hs1]

/-! ### Canonical-state bookkeeping -/

theorem canonSt_nil (cid : Nat) (w0 : World) : canonSt cid w0 [] = ⟨[], [], w0⟩ := by
  simp [canonSt, canonDeltas, canonMCAux, idRange, dfsTasks]

theorem canonSt_module_ids (cid : Nat) (w0 : World) (ms : List Module) :
    (canonSt cid w0 ms).module_ids = idRange w0.nextMilestoneId ms.length := rfl

theorem canonSt_mc (cid : Nat) (w0 : World) (ms : List Module) :
    (canonSt cid w0 ms).module_concepts =
      canonMCAux w0.nextMilestoneId w0.nextTaskRowId ms := rfl

theorem canonDeltas_milestones_count (cid : Nat) (ms : List Module) :
    ∀ (mb tb ob tob : Nat),
    (((canonDeltas cid mb tb ob tob ms).1).filter
      (fun r => r.course_id == cid)).length = ms.length := by
  induction ms with
  | nil => intro mb tb ob tob; rfl
  | cons m rest ih =>
      intro mb tb ob tob
      simp [canonDeltas, List.filter_cons, ih]

theorem canonDeltas_taskRows_count (cid : Nat) (ms : List Module) :
    ∀ (mb tb ob tob : Nat),
    (((canonDeltas cid mb tb ob tob ms).2.1).filter
      (fun r => r.course_id == cid)).length = (dfsTasks ms).length := by
  induction ms with
  | nil => intro mb tb ob tob; rfl
  | cons m rest ih =>
      intro mb tb ob tob
      simp [canonDeltas, List.filter_append, taskRowsFor_count, ih, dfsTasks, tasksOf]

theorem milestoneCount_canonSt (cid : Nat) (w0 : World) (ms : List Module) :
    milestoneCount (canonSt cid w0 ms).world cid = milestoneCount w0 cid + ms.length := by
  simp only [canonSt, milestoneCount, List.filter_append, List.length_append]
  rw [canonDeltas_milestones_count]

theorem taskRowCount_canonSt (cid : Nat) (w0 : World) (ms : List Module) :
    taskRowCount (canonSt cid w0 ms).world cid =
      taskRowCount w0 cid + (dfsTasks ms).length := by
  simp only [canonSt, taskRowCount, List.filter_append, List.length_append]
  rw [canonDeltas_taskRows_count]

theorem canonDeltas_append (cid : Nat) (xs : List Module) :
    ∀ (ys : List Module) (mb tb ob tob : Nat),
    canonDeltas cid mb tb ob tob (xs ++ ys) =
      ((canonDeltas cid mb tb ob tob xs).1 ++
        (canonDeltas cid (mb + xs.length) (tb + (dfsTasks xs).length)
          (ob + xs.length) (tob + (dfsTasks xs).length) ys).1,
       (canonDeltas cid mb tb ob tob xs).2.1 ++
        (canonDeltas cid (mb + xs.length) (tb + (dfsTasks xs).length)
          (ob + xs.length) (tob + (dfsTasks xs).length) ys).2.1,
       (canonDeltas cid mb tb ob tob xs).2.2 ++
        (canonDeltas cid (mb + xs.length) (tb + (dfsTasks xs).length)
          (ob + xs.length) (tob + (dfsTasks xs).length) ys).2.2) := by
  induction xs with
  | nil => intro ys mb tb ob tob; simp [canonDeltas, dfsTasks]
  | cons m rest ih =>
      intro ys mb tb ob tob
      simp only [List.cons_append, canonDeltas, List.append_eq, ih,
        List.length_cons]
      have h1 : mb + 1 + rest.length = mb + (rest.length + 1) := by omega
      have h2 : ob + 1 + rest.length = ob + (rest.length + 1) := by omega
      have h3 : tb + (tasksOf m).length + (dfsTasks rest).length =
          tb + (dfsTasks (m :: rest)).length := by
        simp [dfsTasks, tasksOf]
        omega
      have h4 : tob + (tasksOf m).length + (dfsTasks rest).length =
          tob + (dfsTasks (m :: rest)).length := by
        simp [dfsTasks, tasksOf]
        omega
      rw [h1, h2, h3, h4]
      simp [List.append_assoc]

theorem list_split_getD {α : Type} (d : α) :
    ∀ (l : List α) (i : Nat), i < l.length →
    l = l.take i ++ (l.getD i d) :: l.drop (i + 1) := by
  intro l
  induction l with
  | nil => intro i hi; simp at hi
  | cons x rest ih =>
      intro i hi
      cases i with
      | zero => simp
      | succ i =>
          simp only [List.length_cons] at hi
          have := ih i (by omega)
          simp only [List.take_succ_cons, List.getD_cons_succ, List.drop_succ_cons,
            List.cons_append]
          exact congrArg (x :: ·) this

theorem length_take_of_le {α : Type} (l : List α) (i : Nat) (h : i ≤ l.length) :
    (l.take i).length = i := by
  simp [List.length_take]
  omega

/-! ### The module loop: reprocessing fully recorded modules is a no-op -/

theorem processModulesFrom_noop (cid : Nat) (w0 : World) (M : List Module)
    (hwfM : ∀ m ∈ M, moduleWF m = true) :
    ∀ (seg : List Module) (i : Nat),
    (∀ j, j < seg.length → i + j < M.length ∧ seg.getD j dMod = M.getD (i + j) dMod) →
    processModulesFrom cid i seg (canonSt cid w0 M) = canonSt cid w0 M := by
  intro seg
  induction seg with
  | nil => intro i _; rfl
  | cons m rest ih =>
      intro i hseg
      obtain ⟨hiM, hmi⟩ := hseg 0 (by simp)
      rw [Nat.add_zero] at hiM hmi
      simp only [List.getD_cons_zero] at hmi
      have hmem : m ∈ M := by
        rw [hmi]
        have hgd : M.getD i dMod = M.get ⟨i, hiM⟩ := by
          rw [List.getD_eq_getElem?_getD, List.getElem?_eq_getElem hiM]
          rfl
        rw [hgd]
        exact List.get_mem M i hiM
      have hwf : moduleWF m = true := hwfM m hmem
      have hv : moduleValid m = true := moduleWF_valid m hwf
      have hlen : (canonSt cid w0 M).module_ids.length = M.length := by
        rw [canonSt_module_ids, idRange_length]
      simp only [processModulesFrom]
      rw [if_pos hv, if_neg (by rw [hlen]; omega)]
      have hmid : (canonSt cid w0 M).module_ids.getD i 0 = w0.nextMilestoneId + i := by
        rw [canonSt_module_ids, idRange_getD _ _ _ hiM]
      have hsplit := list_split_getD dMod M i hiM
      have hinn : assocGet (canonSt cid w0 M).module_concepts
          (w0.nextMilestoneId + i) =
          some (canonInnerAux (w0.nextTaskRowId + (dfsTasks (M.take i)).length) 0
            m.concepts) := by
        rw [canonSt_mc]
        conv_lhs => rw [hsplit]
        have htk : (M.take i).length = i := length_take_of_le M i (by omega)
        rw [show w0.nextMilestoneId + i = w0.nextMilestoneId + (M.take i).length by
          rw [htk]]
        rw [assocGet_canonMCAux_at, hmi]
      have hne : m.concepts ≠ [] := moduleWF_concepts_ne m hwf
      have hcsplit : m.concepts = m.concepts.dropLast ++ [m.concepts.getLast hne] :=
        (List.dropLast_append_getLast hne).symm
      have hnoop : processConceptsFrom cid (w0.nextMilestoneId + i) 0 m.concepts
          (canonSt cid w0 M) = canonSt cid w0 M := by
        conv_lhs => rw [hcsplit]
        refine processConceptsFrom_noop cid (w0.nextMilestoneId + i)
          m.concepts.dropLast (m.concepts.getLast hne)
          (w0.nextTaskRowId + (dfsTasks (M.take i)).length) (canonSt cid w0 M) ?_ ?_
        · exact moduleWF_concepts m hwf _ (List.getLast_mem hne)
        · rw [← hcsplit]
          exact hinn
      rw [hmid, hnoop]
      exact ih (i + 1) (fun j hj => by
        have := hseg (j + 1) (by simp; omega)
        constructor
        · have h1 := this.1
          omega
        · have h2 := this.2
          simpa [Nat.add_assoc, Nat.add_comm, Nat.add_left_comm] using h2)

theorem idRange_concat (a n : Nat) : idRange a n ++ [a + n] = idRange a (n + 1) := by
  have := idRange_append a n 1
  simpa [idRange] using this

theorem len_dfsTasks_singleton (m : Module) :
    (dfsTasks [m]).length = tasksLen m.concepts := by
  simp [dfsTasks, tasksOf, tasksLen]

/-! ### The module loop: materializing new modules -/

theorem processModulesFrom_fresh (cid : Nat) (w0 : World) :
    ∀ (mrest : List Module) (N : List Module),
    (∀ m ∈ mrest, moduleWF m = true) →
    processModulesFrom cid N.length mrest (canonSt cid w0 N) =
      canonSt cid w0 (N ++ mrest) := by
  intro mrest
  induction mrest with
  | nil => intro N _; rw [List.append_nil]; rfl
  | cons m mrest' ih =>
      intro N hwf
      have hwfm : moduleWF m = true := hwf m (by simp)
      have hv := moduleWF_valid m hwfm
      have hne := moduleWF_concepts_ne m hwfm
      simp only [processModulesFrom]
      rw [if_pos hv, if_pos (by rw [canonSt_module_ids, idRange_length])]
      have h1 : (createModule cid m (canonSt cid w0 N)).1 =
          w0.nextMilestoneId + N.length := by
        simp [createModule, add_milestone_to_course, canonSt]
      have habs : assocGet (createModule cid m (canonSt cid w0 N)).2.module_concepts
          (w0.nextMilestoneId + N.length) = none := by
        have hmc : (createModule cid m (canonSt cid w0 N)).2.module_concepts =
            canonMCAux w0.nextMilestoneId w0.nextTaskRowId N := by
          simp [createModule, add_milestone_to_course, canonSt]
        rw [hmc]
        exact assocGet_canonMCAux_ge _ _ _ _ (by omega)
      have hctr2 : (createModule cid m (canonSt cid w0 N)).2.world.nextTaskRowId =
          (w0.nextTaskRowId + (dfsTasks N).length) + tasksLen [] := by
        simp [createModule, add_milestone_to_course, canonSt, tasksLen]
      have hkey : processConceptsFrom cid (w0.nextMilestoneId + N.length) 0
          m.concepts (createModule cid m (canonSt cid w0 N)).2 =
          canonSt cid w0 (N ++ [m]) := by
        have hfresh := processConceptsFrom_fresh cid (w0.nextMilestoneId + N.length)
          m.concepts [] (w0.nextTaskRowId + (dfsTasks N).length)
          (createModule cid m (canonSt cid w0 N)).2
          (moduleWF_concepts m hwfm) (Or.inl ⟨rfl, habs, hne⟩) hctr2
        simp only [List.length_nil] at hfresh
        rw [hfresh]
        have hcount2 : taskRowCount (createModule cid m (canonSt cid w0 N)).2.world cid
            = taskRowCount w0 cid + (dfsTasks N).length := by
          simp only [createModule, add_milestone_to_course, canonSt, taskRowCount,
            List.filter_append, List.length_append]
          rw [canonDeltas_taskRows_count]
        rw [hcount2]
        simp only [createModule, add_milestone_to_course, canonSt, List.nil_append]
        rw [canonDeltas_append cid N [m], canonMCAux_append w0.nextMilestoneId
          w0.nextTaskRowId N [m]]
        have hord : ((w0.milestones ++
            (canonDeltas cid w0.nextMilestoneId w0.nextTaskRowId
              (milestoneCount w0 cid) (taskRowCount w0 cid) N).1).filter
            (fun r => r.course_id == cid)).length =
            milestoneCount w0 cid + N.length := by
          simp only [List.filter_append, List.length_append]
          rw [canonDeltas_milestones_count]
          rfl
        simp only [hord]
        simp only [GenSt.mk.injEq, World.mk.injEq]
        repeat' apply And.intro
        · rw [idRange_concat]
          congr 1
          simp
        · rw [assocSet_absent _ _ _ (assocGet_canonMCAux_ge _ _ _ _ (by omega))]
          congr 1
        · simp only [List.length_append, List.length_cons, List.length_nil]
          omega
        · rw [dfsTasks_append, List.length_append, len_dfsTasks_singleton]
          omega
        · trivial
        · simp [canonDeltas, List.append_assoc]
        · simp [canonDeltas, tasksOf, tasksLen, List.append_assoc]
        · trivial
        · trivial
        · trivial
        · simp [canonDeltas, tasksOf, tasksLen, List.append_assoc]
      rw [h1, hkey]
      have hih := ih (N ++ [m]) (fun x hx => hwf x (by simp [hx]))
      rw [show (N ++ [m]).length = N.length + 1 by simp] at hih
      rw [hih]
      congr 1
      simp

theorem getD_append_left {α : Type} (d : α) (l₁ l₂ : List α) :
    ∀ (j : Nat), j < l₁.length → (l₁ ++ l₂).getD j d = l₁.getD j d := by
  induction l₁ with
  | nil => intro j h; simp at h
  | cons x rest ih =>
      intro j h
      cases j with
      | zero => simp
      | succ j =>
          simp only [List.cons_append, List.getD_cons_succ]
          exact ih j (by simp only [List.length_cons] at h; omega)

theorem conceptExt_flatMap_split (cpre : List Concept) (ca cb : Concept)
    (crest : List Concept) (hcc : conceptExt ca cb = true) :
    (cpre ++ cb :: crest).flatMap (·.tasks) =
      (cpre ++ [ca]).flatMap (·.tasks) ++
        (((cpre ++ cb :: crest).flatMap (·.tasks)).drop (tasksLen (cpre ++ [ca]))) := by
  obtain ⟨htake, hle⟩ := conceptExt_take ca cb hcc
  have htake2 : ((cpre ++ cb :: crest).flatMap (·.tasks)).take (tasksLen (cpre ++ [ca])) =
      (cpre ++ [ca]).flatMap (·.tasks) := by
    rw [List.flatMap_append, List.flatMap_cons, List.flatMap_append]
    simp only [List.flatMap_cons, List.flatMap_nil, List.append_nil]
    rw [show tasksLen (cpre ++ [ca]) =
      (cpre.flatMap (·.tasks)).length + ca.tasks.length by
        rw [tasksLen_append, tasksLen_singleton]; rfl]
    rw [List.take_append]
    congr 1
    rw [List.take_append_of_le_length hle, htake]
  conv_lhs => rw [← List.take_append_drop (tasksLen (cpre ++ [ca]))
    ((cpre ++ cb :: crest).flatMap (·.tasks))]
  rw [htake2]

/-! ### One emission over a recorded depth-first state -/

theorem processEmission_canon (cid : Nat) (w0 : World) (M M' : List Module)
    (hwfM : ∀ m ∈ M, moduleWF m = true) (hwfM' : ∀ m ∈ M', moduleWF m = true)
    (hext : tailExt moduleExt M M' = true) :
    processEmission cid (canonSt cid w0 M) ⟨M'⟩ = canonSt cid w0 M' := by
  rcases tailExt_cases moduleExt M M' hext with hM | ⟨mpre, ma, mb, mrest, hMeq, hM'eq, hab⟩
  · subst hM
    cases hM' : M' with
    | nil =>
        subst hM'
        simp [processEmission]
    | cons x xs =>
        subst hM'
        simp only [processEmission]
        rw [if_neg (by simp)]
        have hfr := processModulesFrom_fresh cid w0 (x :: xs) [] hwfM'
        simpa using hfr
  · subst hMeq
    subst hM'eq
    simp only [processEmission]
    rw [if_neg (by simp)]
    simp only [moduleExt, Bool.and_eq_true, decide_eq_true_eq] at hab
    obtain ⟨hname, hcext⟩ := hab
    have hwfa : moduleWF ma = true := hwfM ma (by simp)
    have hwfb : moduleWF mb = true := hwfM' mb (by simp)
    rcases tailExt_cases conceptExt ma.concepts mb.concepts hcext with hnil |
      ⟨cpre, ca, cb, crest, hca, hcb, hcc⟩
    · exact absurd hnil (moduleWF_concepts_ne ma hwfa)
    rw [processModulesFrom_append cid mpre (mb :: mrest) 0 (canonSt cid w0 (mpre ++ [ma]))]
    rw [processModulesFrom_noop cid w0 (mpre ++ [ma]) hwfM mpre 0 (fun j hj =>
      ⟨by simp only [Nat.zero_add, List.length_append, List.length_cons,
          List.length_nil]; omega,
       by rw [Nat.zero_add, getD_append_left dMod mpre [ma] j hj]⟩)]
    simp only [Nat.zero_add]
    simp only [processModulesFrom]
    have hvb := moduleWF_valid mb hwfb
    rw [if_pos hvb, if_neg (by
      rw [canonSt_module_ids, idRange_length]
      simp only [List.length_append, List.length_cons, List.length_nil]
      omega)]
    have hmid : (canonSt cid w0 (mpre ++ [ma])).module_ids.getD mpre.length 0 =
        w0.nextMilestoneId + mpre.length := by
      rw [canonSt_module_ids]
      exact idRange_getD _ _ _ (by simp)
    rw [hmid]
    have hkey : processConceptsFrom cid (w0.nextMilestoneId + mpre.length) 0
        mb.concepts (canonSt cid w0 (mpre ++ [ma])) =
        canonSt cid w0 (mpre ++ [mb]) := by
      have hinnM : assocGet (canonSt cid w0 (mpre ++ [ma])).module_concepts
          (w0.nextMilestoneId + mpre.length) =
          some (canonInnerAux (w0.nextTaskRowId + (dfsTasks mpre).length) 0
            (cpre ++ [ca])) := by
        rw [canonSt_mc, assocGet_canonMCAux_at, hca]
      have hctrM : (canonSt cid w0 (mpre ++ [ma])).world.nextTaskRowId =
          (w0.nextTaskRowId + (dfsTasks mpre).length) + tasksLen (cpre ++ [ca]) := by
        show w0.nextTaskRowId + (dfsTasks (mpre ++ [ma])).length = _
        rw [dfsTasks_append, List.length_append, len_dfsTasks_singleton, hca]
        omega
      have hwfcs : ∀ x ∈ cb :: crest, conceptWF x = true := by
        intro x hx
        exact moduleWF_concepts mb hwfb x
          (by rw [hcb]; exact List.mem_append.mpr (Or.inr hx))
      have hME := processConceptsFrom_extendLast cid
        (w0.nextMilestoneId + mpre.length) cpre ca cb crest
        (w0.nextTaskRowId + (dfsTasks mpre).length)
        (canonSt cid w0 (mpre ++ [ma])) hwfcs hcc hinnM hctrM
      rw [hcb, hME]
      have hcountM : taskRowCount (canonSt cid w0 (mpre ++ [ma])).world cid =
          taskRowCount w0 cid + (dfsTasks mpre).length + tasksLen (cpre ++ [ca]) := by
        rw [taskRowCount_canonSt, dfsTasks_append, List.length_append,
          len_dfsTasks_singleton, hca]
        omega
      rw [hcountM]
      have hsplit := conceptExt_flatMap_split cpre ca cb crest hcc
      simp only [canonSt]
      rw [canonDeltas_append cid mpre [ma], canonDeltas_append cid mpre [mb],
        canonMCAux_append w0.nextMilestoneId w0.nextTaskRowId mpre [ma],
        canonMCAux_append w0.nextMilestoneId w0.nextTaskRowId mpre [mb]]
      simp only [GenSt.mk.injEq, World.mk.injEq]
      repeat' apply And.intro
      · congr 1
        simp
      · rw [show canonMCAux (w0.nextMilestoneId + mpre.length)
            (w0.nextTaskRowId + (dfsTasks mpre).length) [ma] =
            (w0.nextMilestoneId + mpre.length,
              canonInnerAux (w0.nextTaskRowId + (dfsTasks mpre).length) 0
                ma.concepts) :: [] from rfl]
        rw [assocSet_append_of_absent_left _ _ _ _ _
          (assocGet_canonMCAux_ge w0.nextMilestoneId w0.nextTaskRowId mpre _
            (by omega))]
        rw [← hcb]
        rfl
      · simp
      · rw [dfsTasks_append, List.length_append, len_dfsTasks_singleton, hcb]
        omega
      · trivial
      · simp [canonDeltas, hname]
      · simp only [canonDeltas, List.append_nil]
        rw [show tasksOf ma = (cpre ++ [ca]).flatMap (·.tasks) from by
          simp [tasksOf, hca]]
        rw [show tasksOf mb = ((cpre ++ [ca]).flatMap (·.tasks)) ++
            (((cpre ++ cb :: crest).flatMap (·.tasks)).drop
              (tasksLen (cpre ++ [ca]))) from by
          simp only [tasksOf, hcb]; exact hsplit]
        rw [taskRowsFor_append]
        simp [tasksLen, List.append_assoc]
      · trivial
      · trivial
      · trivial
      · simp only [canonDeltas, List.append_nil]
        rw [show tasksOf ma = (cpre ++ [ca]).flatMap (·.tasks) from by
          simp [tasksOf, hca]]
        rw [show tasksOf mb = ((cpre ++ [ca]).flatMap (·.tasks)) ++
            (((cpre ++ cb :: crest).flatMap (·.tasks)).drop
              (tasksLen (cpre ++ [ca]))) from by
          simp only [tasksOf, hcb]; exact hsplit]
        rw [taskEventsFor_append, hname]
        simp [tasksLen, List.append_assoc]
    rw [hkey]
    have hfr := processModulesFrom_fresh cid w0 mrest (mpre ++ [mb])
      (fun x hx => hwfM' x (by simp [hx]))
    rw [show (mpre ++ [mb]).length = mpre.length + 1 by simp] at hfr
    rw [hfr]
    congr 1
    simp

/-- Auxiliary chain lemma: running the stream loop over a depth-first
extension chain, starting from the canonical state of the chain's head,
lands in the canonical state of the chain's last emission. -/
theorem processEmissions_canon_aux (cid : Nat) (w0 : World) (chunks : List Output) :
    ∀ (M : List Module), (∀ m ∈ M, moduleWF m = true) →
    (∀ E ∈ chunks, outlineWF E = true) →
    extChain (Output.mk M :: chunks) = true →
    processEmissions cid chunks (canonSt cid w0 M) =
      canonSt cid w0 ((chunks.getLastD ⟨M⟩).modules) := by
  induction chunks with
  | nil => intro M _ _ _; rfl
  | cons E rest ih =>
      intro M hwfM hwfC hchain
      cases E with
      | mk Ms =>
          simp only [extChain, Bool.and_eq_true] at hchain
          obtain ⟨hext, hchain'⟩ := hchain
          have hwfMs : ∀ m ∈ Ms, moduleWF m = true := by
            have := hwfC ⟨Ms⟩ (by simp)
            simpa [outlineWF, List.all_eq_true] using this
          simp only [processEmissions, List.foldl_cons]
          rw [processEmission_canon cid w0 M Ms hwfM hwfMs
            (by simpa [outlineExt] using hext)]
          have hih := ih Ms hwfMs (fun E' hE' => hwfC E' (by simp [hE'])) hchain'
          simp only [processEmissions] at hih
          rw [hih, List.getLastD_cons]


/-- Running the stream loop from the worker's initial state over a
depth-first extension chain lands in the canonical state of the last
emission. -/
theorem processEmissions_canon (cid : Nat) (w0 : World) (chunks : List Output)
    (hwf : ∀ E ∈ chunks, outlineWF E = true) (hchain : extChain chunks = true) :
    processEmissions cid chunks ⟨[], [], w0⟩ =
      canonSt cid w0 ((chunks.getLastD ⟨[]⟩).modules) := by
  have h0 : extChain (Output.mk [] :: chunks) = true := by
    cases chunks with
    | nil => rfl
    | cons E rest =>
        simp only [extChain, Bool.and_eq_true]
        exact ⟨rfl, hchain⟩
  have h := processEmissions_canon_aux cid w0 chunks [] (by simp) hwf h0
  rw [canonSt_nil] at h
  exact h

/-! ### Job-table update lemmas -/

theorem courseJobStatus_update (w : World) (u : String)
    (st : GenerateCourseJobStatus) :
    courseJobStatus (update_course_generation_job_status w u st) u =
      (courseJobStatus w u).map (fun _ => st) := by
  simp only [courseJobStatus, update_course_generation_job_status]
  induction w.courseJobs with
  | nil => rfl
  | cons j rest ih =>
      simp only [List.map_cons]
      by_cases h : j.uuid = u
      · rw [if_pos h, List.find?_cons_of_pos _ (by simp [h]),
          List.find?_cons_of_pos _ (by simp [h])]
        simp
      · rw [if_neg h, List.find?_cons_of_neg _ (by simp [h]),
          List.find?_cons_of_neg _ (by simp [h])]
        exact ih

theorem courseJobStatus_update_sd (w : World) (u : String)
    (st : GenerateCourseJobStatus) (jd : JobDetails) :
    courseJobStatus (update_course_generation_job_status_and_details w u st jd) u =
      (courseJobStatus w u).map (fun _ => st) := by
  simp only [courseJobStatus, update_course_generation_job_status_and_details]
  induction w.courseJobs with
  | nil => rfl
  | cons j rest ih =>
      simp only [List.map_cons]
      by_cases h : j.uuid = u
      · rw [if_pos h, List.find?_cons_of_pos _ (by simp [h]),
          List.find?_cons_of_pos _ (by simp [h])]
        simp
      · rw [if_neg h, List.find?_cons_of_neg _ (by simp [h]),
          List.find?_cons_of_neg _ (by simp [h])]
        exact ih

theorem courseJobDetails_update_sd (w : World) (u : String)
    (st : GenerateCourseJobStatus) (jd : JobDetails) :
    get_course_generation_job_details
        (update_course_generation_job_status_and_details w u st jd) u =
      (get_course_generation_job_details w u).map (fun _ => jd) := by
  simp only [get_course_generation_job_details,
    update_course_generation_job_status_and_details]
  induction w.courseJobs with
  | nil => rfl
  | cons j rest ih =>
      simp only [List.map_cons]
      by_cases h : j.uuid = u
      · rw [if_pos h, List.find?_cons_of_pos _ (by simp [h]),
          List.find?_cons_of_pos _ (by simp [h])]
        simp
      · rw [if_neg h, List.find?_cons_of_neg _ (by simp [h]),
          List.find?_cons_of_neg _ (by simp [h])]
        exact ih

/-! ### Fan-out dispatch characterization -/

theorem expectedTaskJobs_length (cid : Nat) (ju fid : String)
    (leaves : List (SConcept × STask)) : ∀ (n : Nat),
    (expectedTaskJobs cid ju fid n leaves).length = leaves.length := by
  induction leaves with
  | nil => intro n; rfl
  | cons p rest ih =>
      intro n
      obtain ⟨c, t⟩ := p
      simp [expectedTaskJobs, ih]

theorem expectedTaskJobs_shape (cid : Nat) (ju fid : String)
    (leaves : List (SConcept × STask)) : ∀ (n : Nat),
    ∀ j ∈ expectedTaskJobs cid ju fid n leaves,
      j.status = GenerateTaskJobStatus.started ∧ j.course_id = cid := by
  induction leaves with
  | nil => intro n j hj; simp [expectedTaskJobs] at hj
  | cons p rest ih =>
      intro n j hj
      obtain ⟨c, t⟩ := p
      simp only [expectedTaskJobs, List.mem_cons] at hj
      rcases hj with h | h
      · subst h; exact ⟨rfl, rfl⟩
      · exact ih (n + 1) j h

theorem expectedUnits_uuids (cid : Nat) (ju fid : String)
    (leaves : List (SConcept × STask)) : ∀ (n : Nat),
    (expectedUnits cid ju fid n leaves).map (·.task_job_uuid) =
      (expectedTaskJobs cid ju fid n leaves).map (·.uuid) := by
  induction leaves with
  | nil => intro n; rfl
  | cons p rest ih =>
      intro n
      obtain ⟨c, t⟩ := p
      simp [expectedUnits, expectedTaskJobs, ih]

theorem storeLeafJobs_spec (cid : Nat) (ju fid : String)
    (leaves : List (SConcept × STask)) : ∀ (w : World),
    storeLeafJobs cid ju fid leaves w =
      ({ w with
          nextJobId := w.nextJobId + leaves.length
          taskJobs := w.taskJobs ++ expectedTaskJobs cid ju fid w.nextJobId leaves },
       expectedUnits cid ju fid w.nextJobId leaves) := by
  induction leaves with
  | nil =>
      intro w
      simp [storeLeafJobs, expectedTaskJobs, expectedUnits]
  | cons p rest ih =>
      intro w
      obtain ⟨c, t⟩ := p
      simp only [storeLeafJobs, store_task_generation_request]
      rw [ih]
      simp only [expectedTaskJobs, expectedUnits, Prod.mk.injEq, List.length_cons]
      refine ⟨?_, trivial⟩
      simp only [World.mk.injEq]
      repeat' apply And.intro
      all_goals try trivial
      · omega
      · simp [List.append_assoc]

/-! ### Stamping the canonical state -/

theorem assocGet_canonInnerAux_at (tb : Nat) (cpre : List Concept) (c : Concept)
    (crest : List Concept) :
    assocGet (canonInnerAux tb 0 (cpre ++ c :: crest)) cpre.length =
      some (idRange (tb + tasksLen cpre) c.tasks.length) := by
  rw [canonInnerAux_append, assocGet_append]
  rw [assocGet_canonInnerAux_ge tb 0 cpre cpre.length (by omega)]
  simp [canonInnerAux, assocGet]

theorem stampTasks_idRange (mc : MC) (mid ci : Nat) (ts : List Task) :
    ∀ (ti tb0 L : Nat), mcTasks mc mid ci = idRange tb0 L →
    ti + ts.length = L →
    stampTasks mc mid ci ti ts = some (canonStampTasks (tb0 + ti) ts) := by
  induction ts with
  | nil => intro ti tb0 L _ _; rfl
  | cons t rest ih =>
      intro ti tb0 L hmc hlen
      have hlt : ti < L := by simp only [List.length_cons] at hlen; omega
      simp only [stampTasks, hmc, idRange_get?, if_pos hlt]
      rw [ih (ti + 1) tb0 L hmc (by simp only [List.length_cons] at hlen; omega)]
      rw [show tb0 + (ti + 1) = tb0 + ti + 1 from by omega]
      simp [canonStampTasks]

theorem stampConcepts_canon (mc : MC) (mid tb : Nat) (cs : List Concept) :
    ∀ (csDone : List Concept),
    assocGet mc mid = some (canonInnerAux tb 0 (csDone ++ cs)) →
    stampConcepts mc mid csDone.length cs =
      some (canonStampConcepts (tb + tasksLen csDone) cs) := by
  induction cs with
  | nil => intro csDone _; rfl
  | cons c rest ih =>
      intro csDone hmc
      have hTs : mcTasks mc mid csDone.length =
          idRange (tb + tasksLen csDone) c.tasks.length := by
        simp only [mcTasks, hmc, Option.getD_some]
        rw [assocGet_canonInnerAux_at]
        rfl
      simp only [stampConcepts]
      rw [stampTasks_idRange mc mid csDone.length c.tasks 0 (tb + tasksLen csDone)
        c.tasks.length hTs (by omega)]
      have hrec := ih (csDone ++ [c]) (by
        rw [show (csDone ++ [c]) ++ rest = csDone ++ c :: rest by simp]
        exact hmc)
      rw [show (csDone ++ [c]).length = csDone.length + 1 by simp] at hrec
      rw [show tasksLen (csDone ++ [c]) = tasksLen csDone + c.tasks.length from by
        rw [tasksLen_append, tasksLen_singleton]] at hrec
      rw [hrec]
      simp [canonStampConcepts, Nat.add_assoc]

theorem stampModules_canon (nmi ntr : Nat) (ms : List Module) :
    ∀ (msDone : List Module),
    stampModules (idRange nmi (msDone ++ ms).length)
        (canonMCAux nmi ntr (msDone ++ ms)) msDone.length ms =
      some (canonStampModules (nmi + msDone.length)
        (ntr + (dfsTasks msDone).length) ms) := by
  induction ms with
  | nil => intro msDone; rfl
  | cons m rest ih =>
      intro msDone
      have hlt : msDone.length < (msDone ++ m :: rest).length := by simp
      simp only [stampModules, idRange_get?, if_pos hlt]
      have hsc := stampConcepts_canon (canonMCAux nmi ntr (msDone ++ m :: rest))
        (nmi + msDone.length) (ntr + (dfsTasks msDone).length) m.concepts []
        (by simpa using assocGet_canonMCAux_at nmi ntr msDone m rest)
      simp only [List.length_nil, tasksLen, List.flatMap_nil, List.length_nil,
        Nat.add_zero] at hsc
      have hrec := ih (msDone ++ [m])
      rw [show (msDone ++ [m]) ++ rest = msDone ++ m :: rest by simp] at hrec
      rw [show (msDone ++ [m]).length = msDone.length + 1 by simp] at hrec
      rw [show (dfsTasks (msDone ++ [m])).length =
        (dfsTasks msDone).length + (tasksOf m).length from by
          rw [dfsTasks_append, List.length_append]
          simp [dfsTasks]] at hrec
      rw [hsc, hrec]
      simp [canonStampModules, Nat.add_assoc]

theorem stampOutline_canonSt (cid : Nat) (w0 : World) (M : List Module) :
    stampOutline (canonSt cid w0 M).module_ids (canonSt cid w0 M).module_concepts
        ⟨M⟩ =
      some (canonStamp w0.nextMilestoneId w0.nextTaskRowId ⟨M⟩) := by
  have h := stampModules_canon w0.nextMilestoneId w0.nextTaskRowId M []
  simp only [List.nil_append, List.length_nil, dfsTasks, List.flatMap_nil,
    Nat.add_zero] at h
  simp [stampOutline, canonSt_module_ids, canonSt_mc, h, canonStamp, dfsTasks]

/-! ### Event extraction over the canonical deltas -/

theorem moduleCreatedNames_append (a b : List Event) :
    moduleCreatedNames (a ++ b) = moduleCreatedNames a ++ moduleCreatedNames b := by
  simp [moduleCreatedNames]

theorem moduleCreatedIds_append (a b : List Event) :
    moduleCreatedIds (a ++ b) = moduleCreatedIds a ++ moduleCreatedIds b := by
  simp [moduleCreatedIds]

theorem taskCreatedPairs_append (a b : List Event) :
    taskCreatedPairs (a ++ b) = taskCreatedPairs a ++ taskCreatedPairs b := by
  simp [taskCreatedPairs]

theorem taskCreatedIds_append (a b : List Event) :
    taskCreatedIds (a ++ b) = taskCreatedIds a ++ taskCreatedIds b := by
  simp [taskCreatedIds]

theorem moduleCreatedNames_taskEventsFor (cid mid : Nat) (ts : List Task) :
    ∀ (tb tob : Nat), moduleCreatedNames (taskEventsFor cid mid tb tob ts) = [] := by
  induction ts with
  | nil => intro tb tob; rfl
  | cons t rest ih =>
      intro tb tob
      show moduleCreatedNames (taskEventsFor cid mid (tb + 1) (tob + 1) rest) = []
      exact ih (tb + 1) (tob + 1)

theorem moduleCreatedIds_taskEventsFor (cid mid : Nat) (ts : List Task) :
    ∀ (tb tob : Nat), moduleCreatedIds (taskEventsFor cid mid tb tob ts) = [] := by
  induction ts with
  | nil => intro tb tob; rfl
  | cons t rest ih =>
      intro tb tob
      show moduleCreatedIds (taskEventsFor cid mid (tb + 1) (tob + 1) rest) = []
      exact ih (tb + 1) (tob + 1)

theorem taskCreatedPairs_taskEventsFor (cid mid : Nat) (ts : List Task) :
    ∀ (tb tob : Nat), taskCreatedPairs (taskEventsFor cid mid tb tob ts) =
      ts.map (fun t => (t.name, t.type)) := by
  induction ts with
  | nil => intro tb tob; rfl
  | cons t rest ih =>
      intro tb tob
      show (t.name, t.type) ::
          taskCreatedPairs (taskEventsFor cid mid (tb + 1) (tob + 1) rest) = _
      rw [ih (tb + 1) (tob + 1)]
      rfl

theorem taskCreatedIds_taskEventsFor (cid mid : Nat) (ts : List Task) :
    ∀ (tb tob : Nat), taskCreatedIds (taskEventsFor cid mid tb tob ts) =
      idRange tb ts.length := by
  induction ts with
  | nil => intro tb tob; rfl
  | cons t rest ih =>
      intro tb tob
      show tb :: taskCreatedIds (taskEventsFor cid mid (tb + 1) (tob + 1) rest) = _
      rw [ih (tb + 1) (tob + 1)]
      rfl

theorem moduleCreatedNames_canonDeltas (cid : Nat) (ms : List Module) :
    ∀ (mb tb ob tob : Nat),
    moduleCreatedNames (canonDeltas cid mb tb ob tob ms).2.2 = ms.map (·.name) := by
  induction ms with
  | nil => intro mb tb ob tob; rfl
  | cons m rest ih =>
      intro mb tb ob tob
      simp only [canonDeltas, List.cons_append]
      show m.name :: moduleCreatedNames
          (taskEventsFor cid mb tb tob (tasksOf m) ++ _) = _
      rw [moduleCreatedNames_append, moduleCreatedNames_taskEventsFor, ih]
      simp

theorem moduleCreatedIds_canonDeltas (cid : Nat) (ms : List Module) :
    ∀ (mb tb ob tob : Nat),
    moduleCreatedIds (canonDeltas cid mb tb ob tob ms).2.2 = idRange mb ms.length := by
  induction ms with
  | nil => intro mb tb ob tob; rfl
  | cons m rest ih =>
      intro mb tb ob tob
      simp only [canonDeltas, List.cons_append]
      show mb :: moduleCreatedIds
          (taskEventsFor cid mb tb tob (tasksOf m) ++ _) = _
      rw [moduleCreatedIds_append, moduleCreatedIds_taskEventsFor, ih]
      simp [idRange]

theorem taskCreatedPairs_canonDeltas (cid : Nat) (ms : List Module) :
    ∀ (mb tb ob tob : Nat),
    taskCreatedPairs (canonDeltas cid mb tb ob tob ms).2.2 =
      (dfsTasks ms).map (fun t => (t.name, t.type)) := by
  induction ms with
  | nil => intro mb tb ob tob; rfl
  | cons m rest ih =>
      intro mb tb ob tob
      simp only [canonDeltas, List.cons_append]
      show taskCreatedPairs
          (taskEventsFor cid mb tb tob (tasksOf m) ++ _) = _
      rw [taskCreatedPairs_append, taskCreatedPairs_taskEventsFor, ih]
      simp [dfsTasks]

theorem taskCreatedIds_canonDeltas (cid : Nat) (ms : List Module) :
    ∀ (mb tb ob tob : Nat),
    taskCreatedIds (canonDeltas cid mb tb ob tob ms).2.2 =
      idRange tb (dfsTasks ms).length := by
  induction ms with
  | nil => intro mb tb ob tob; rfl
  | cons m rest ih =>
      intro mb tb ob tob
      simp only [canonDeltas, List.cons_append]
      show taskCreatedIds
          (taskEventsFor cid mb tb tob (tasksOf m) ++ _) = _
      rw [taskCreatedIds_append, taskCreatedIds_taskEventsFor, ih]
      rw [idRange_append]
      rw [show (tasksOf m).length + (dfsTasks rest).length =
        (dfsTasks (m :: rest)).length from by simp [dfsTasks]]

/-! ### Ids carried by the canonical stamp -/

theorem canonStampModules_ids (ms : List Module) : ∀ (mb tb : Nat),
    (canonStampModules mb tb ms).map (·.id) = idRange mb ms.length := by
  induction ms with
  | nil => intro mb tb; rfl
  | cons m rest ih =>
      intro mb tb
      simp only [canonStampModules, List.map_cons, ih]
      rfl

theorem canonStampTasks_ids (ts : List Task) : ∀ (tb : Nat),
    (canonStampTasks tb ts).map (·.id) = idRange tb ts.length := by
  induction ts with
  | nil => intro tb; rfl
  | cons t rest ih =>
      intro tb
      simp only [canonStampTasks, List.map_cons, ih]
      rfl

theorem canonStampConcepts_leaf_ids (cs : List Concept) : ∀ (tb : Nat),
    (((canonStampConcepts tb cs).flatMap (·.tasks)).map (·.id)) =
      idRange tb (tasksLen cs) := by
  induction cs with
  | nil => intro tb; rfl
  | cons c rest ih =>
      intro tb
      simp only [canonStampConcepts, List.flatMap_cons, List.map_append,
        canonStampTasks_ids, ih]
      rw [idRange_append]
      rw [show c.tasks.length + tasksLen rest = tasksLen (c :: rest) from by
        rw [tasksLen_cons]]

theorem canonStamp_leaf_ids (mb : Nat) (ms : List Module) : ∀ (tb : Nat),
    (stampedLeaves ⟨canonStampModules mb tb ms⟩).map (·.id) =
      idRange tb (dfsTasks ms).length := by
  induction ms generalizing mb with
  | nil => intro tb; rfl
  | cons m rest ih =>
      intro tb
      simp only [stampedLeaves, canonStampModules, List.flatMap_cons,
        List.map_append]
      rw [show ((canonStampConcepts tb m.concepts).flatMap (·.tasks)).map (·.id) =
        idRange tb (tasksLen m.concepts) from canonStampConcepts_leaf_ids m.concepts tb]
      have hr := ih (mb + 1) (tb + (tasksOf m).length)
      simp only [stampedLeaves] at hr
      rw [hr, tasksOf_eq_tasksLen, idRange_append]
      rw [show tasksLen m.concepts + (dfsTasks rest).length =
        (dfsTasks (m :: rest)).length from by
          simp [dfsTasks, tasksOf, tasksLen]]

/-! ### Batch-runner invariants -/

theorem batchStep_running_le (K : Nat) (oc : Nat → Bool) (s s' : BatchState)
    (hstep : BatchStep K oc s s') (h : s.running.length ≤ K) :
    s'.running.length ≤ K := by
  cases hstep with
  | launch u rest run fin hlt =>
      simp only [List.length_append, List.length_cons, List.length_nil] at h ⊢
      omega
  | finish u que run fin hu =>
      have := List.length_erase_of_mem hu
      simp only [this] at h ⊢
      omega

theorem batchStep_units_perm (K : Nat) (oc : Nat → Bool) (s s' : BatchState)
    (hstep : BatchStep K oc s s') :
    List.Perm (s.queued ++ s.running ++ s.finished.map Prod.fst)
      (s'.queued ++ s'.running ++ s'.finished.map Prod.fst) := by
  cases hstep with
  | launch u rest run fin hlt =>
      refine List.Perm.append_right _ ?_
      rw [← List.append_assoc]
      exact (List.perm_append_singleton u (rest ++ run)).symm.trans
        (by simp [List.perm_middle])
  | finish u que run fin hu =>
      simp only [List.map_cons, List.append_assoc]
      refine List.Perm.append_left _ ?_
      have h1 := List.perm_cons_erase hu
      refine (List.Perm.append_right _ h1).trans ?_
      exact List.perm_middle.symm

theorem batchStep_outcomes (K : Nat) (oc : Nat → Bool) (s s' : BatchState)
    (hstep : BatchStep K oc s s')
    (h : ∀ p ∈ s.finished, p.2 = oc p.1) :
    ∀ p ∈ s'.finished, p.2 = oc p.1 := by
  cases hstep with
  | launch u rest run fin hlt => exact h
  | finish u que run fin hu =>
      intro p hp
      rcases List.mem_cons.mp hp with h0 | h0
      · subst h0; rfl
      · exact h p h0

theorem batchReach_units_perm (K : Nat) (oc : Nat → Bool) (units : List Nat)
    (s : BatchState) (h : BatchReach K oc (batchInit units) s) :
    List.Perm units (s.queued ++ s.running ++ s.finished.map Prod.fst) := by
  induction h with
  | refl => simp [batchInit]
  | step hr hstep ih => exact ih.trans (batchStep_units_perm _ _ _ _ hstep)

theorem batchReach_outcomes (K : Nat) (oc : Nat → Bool) (units : List Nat)
    (s : BatchState) (h : BatchReach K oc (batchInit units) s) :
    ∀ p ∈ s.finished, p.2 = oc p.1 := by
  induction h with
  | refl => intro p hp; simp [batchInit] at hp
  | step hr hstep ih => exact batchStep_outcomes _ _ _ _ hstep ih

/-! ### Completion-aggregation lemmas -/

theorem runFan_append (cid : Nat) (p : String) (xs ys : List FanAction) (w : World) :
    runFan cid p (xs ++ ys) w = runFan cid p ys (runFan cid p xs w) := by
  simp [runFan, List.foldl_append]

theorem fanStep_check_taskJobs (cid : Nat) (p : String) (w : World) (v : String) :
    (fanStep cid p w (.check v)).taskJobs = w.taskJobs := by
  simp only [fanStep]
  split <;> rfl

theorem runFan_taskJobs (cid : Nat) (p : String) (acts : List FanAction) :
    ∀ (w : World), (runFan cid p acts w).taskJobs =
      w.taskJobs.map (fun j =>
        if FanAction.complete j.uuid ∈ acts then
          { j with status := GenerateTaskJobStatus.completed }
        else j) := by
  induction acts with
  | nil =>
      intro w
      simp [runFan]
  | cons a rest ih =>
      intro w
      show (runFan cid p rest (fanStep cid p w a)).taskJobs = _
      rw [ih (fanStep cid p w a)]
      cases a with
      | complete v =>
          show ((update_task_generation_job_status w v .completed).taskJobs.map _) = _
          simp only [update_task_generation_job_status, List.map_map]
          apply List.map_congr_left
          intro j hj
          by_cases hv : j.uuid = v
          · simp [Function.comp, hv]
          · simp [Function.comp, hv, List.mem_cons]
      | check v =>
          rw [fanStep_check_taskJobs]
          apply List.map_congr_left
          intro j hj
          simp [List.mem_cons]

theorem fanStep_parent_cases (cid : Nat) (p : String) (w : World) (a : FanAction) :
    courseJobStatus (fanStep cid p w a) p = courseJobStatus w p ∨
      courseJobStatus (fanStep cid p w a) p =
        some GenerateCourseJobStatus.completed := by
  cases a with
  | complete v => exact Or.inl rfl
  | check v =>
      simp only [fanStep]
      split
      · rw [courseJobStatus_update]
        cases h0 : courseJobStatus w p with
        | none => exact Or.inl rfl
        | some st => exact Or.inr rfl
      · exact Or.inl rfl

theorem runFan_parent_cases (cid : Nat) (p : String) (acts : List FanAction) :
    ∀ (w : World),
    courseJobStatus (runFan cid p acts w) p = courseJobStatus w p ∨
      courseJobStatus (runFan cid p acts w) p =
        some GenerateCourseJobStatus.completed := by
  induction acts with
  | nil => intro w; exact Or.inl rfl
  | cons a rest ih =>
      intro w
      rcases ih (fanStep cid p w a) with h | h
      · rcases fanStep_parent_cases cid p w a with h2 | h2
        · exact Or.inl (by
            show courseJobStatus (runFan cid p rest (fanStep cid p w a)) p = _
            rw [h, h2])
        · exact Or.inr (by
            show courseJobStatus (runFan cid p rest (fanStep cid p w a)) p = _
            rw [h, h2])
      · exact Or.inr h

theorem fanStep_preserves_parent_completed (cid : Nat) (p : String) (w : World)
    (a : FanAction)
    (h : courseJobStatus w p = some GenerateCourseJobStatus.completed) :
    courseJobStatus (fanStep cid p w a) p =
      some GenerateCourseJobStatus.completed := by
  cases a with
  | complete v => exact h
  | check v =>
      simp only [fanStep]
      split
      · rw [courseJobStatus_update, h]
        rfl
      · exact h

theorem runFan_preserves_parent_completed (cid : Nat) (p : String)
    (acts : List FanAction) : ∀ (w : World),
    courseJobStatus w p = some GenerateCourseJobStatus.completed →
    courseJobStatus (runFan cid p acts w) p =
      some GenerateCourseJobStatus.completed := by
  induction acts with
  | nil => intro w h; exact h
  | cons a rest ih =>
      intro w h
      exact ih _ (fanStep_preserves_parent_completed cid p w a h)

theorem runFan_parent_stuck (cid : Nat) (p u0 : String) (acts : List FanAction) :
    ∀ (w : World),
    (∃ j ∈ w.taskJobs, j.course_id = cid ∧ j.uuid = u0 ∧
      j.status = GenerateTaskJobStatus.started) →
    FanAction.complete u0 ∉ acts →
    courseJobStatus (runFan cid p acts w) p = courseJobStatus w p := by
  induction acts with
  | nil => intro w _ _; rfl
  | cons a rest ih =>
      intro w hex hna
      have hna' : FanAction.complete u0 ∉ rest := fun hmem =>
        hna (List.mem_cons.mpr (Or.inr hmem))
      obtain ⟨j, hj, hcid, huid, hst⟩ := hex
      cases a with
      | complete v =>
          have hv : ¬ j.uuid = v := by
            intro h0
            exact hna (List.mem_cons.mpr (Or.inl (by rw [← huid, h0])))
          show courseJobStatus (runFan cid p rest
            (update_task_generation_job_status w v .completed)) p = _
          rw [ih _ ?_ hna']
          · rfl
          · refine ⟨j, ?_, hcid, huid, hst⟩
            show j ∈ w.taskJobs.map (fun jj =>
              if jj.uuid = v then { jj with status := .completed } else jj)
            have hfix : (fun jj => if jj.uuid = v then
                { jj with status := GenerateTaskJobStatus.completed } else jj) j = j := by
              simp [hv]
            exact hfix ▸ List.mem_map_of_mem _ hj
      | check v =>
          have hpos : ¬ (get_course_task_generation_jobs_status w cid).started = 0 := by
            simp only [get_course_task_generation_jobs_status]
            have hp : 0 < w.taskJobs.countP
                (fun j => decide (j.course_id = cid ∧ j.status = .started)) := by
              rw [List.countP_pos_iff]
              exact ⟨j, hj, by simp [hcid, hst]⟩
            omega
          show courseJobStatus (runFan cid p rest (fanStep cid p w (.check v))) p = _
          rw [show fanStep cid p w (.check v) = w from by
            simp only [fanStep]; rw [if_neg hpos]]
          exact ih w ⟨j, hj, hcid, huid, hst⟩ hna'

theorem startedCount_zero (cid : Nat) (w : World)
    (h : ∀ j ∈ w.taskJobs, j.course_id = cid →
      j.status = GenerateTaskJobStatus.completed) :
    (get_course_task_generation_jobs_status w cid).started = 0 := by
  simp only [get_course_task_generation_jobs_status]
  rw [List.countP_eq_zero]
  intro j hj
  simp only [decide_eq_true_eq, not_and]
  intro hc hs
  rw [h j hj hc] at hs
  exact absurd hs (by simp)

theorem getD_append_cons_length {α : Type} (d : α) (L : List α) (x : α)
    (R : List α) : (L ++ x :: R).getD L.length d = x := by
  induction L with
  | nil => rfl
  | cons y ys ih =>
      simp only [List.cons_append, List.length_cons, List.getD_cons_succ]
      exact ih

theorem checkAfter_split (acts : List FanAction) (hca : checkAfterB acts = true)
    (L : List FanAction) (u : String) (R : List FanAction)
    (heq : acts = L ++ FanAction.check u :: R) :
    FanAction.complete u ∈ L := by
  have hlen : L.length < acts.length := by rw [heq]; simp
  have hall := (List.all_eq_true.mp hca) L.length (List.mem_range.mpr hlen)
  rw [heq, getD_append_cons_length] at hall
  have h2 : decide (FanAction.complete u ∈
      (L ++ FanAction.check u :: R).take L.length) = true := hall
  rw [List.take_left] at h2
  exact of_decide_eq_true h2

theorem exists_last_split {α : Type} (p : α → Prop) (l : List α)
    (h : ∃ x ∈ l, p x) :
    ∃ l₁ x l₂, l = l₁ ++ x :: l₂ ∧ p x ∧ ∀ y ∈ l₂, ¬ p y := by
  induction l with
  | nil => simp at h
  | cons a rest ih =>
      by_cases hr : ∃ x ∈ rest, p x
      · obtain ⟨l₁, x, l₂, heq, hpx, hnone⟩ := ih hr
        exact ⟨a :: l₁, x, l₂, by rw [heq]; rfl, hpx, hnone⟩
      · push_neg at hr
        obtain ⟨x, hx, hpx⟩ := h
        rcases List.mem_cons.mp hx with h0 | h0
        · subst h0
          exact ⟨[], x, rest, rfl, hpx, hr⟩
        · exact absurd hpx (hr x h0)

theorem runFan_all_completed (cid : Nat) (p : String) (pre : List FanAction)
    (w : World)
    (hcover : ∀ j ∈ w.taskJobs, j.course_id = cid →
      FanAction.complete j.uuid ∈ pre) :
    ∀ j ∈ (runFan cid p pre w).taskJobs, j.course_id = cid →
      j.status = GenerateTaskJobStatus.completed := by
  intro j hjm hjc
  rw [runFan_taskJobs] at hjm
  obtain ⟨j₀, hj₀, hj₀eq⟩ := List.mem_map.mp hjm
  by_cases hin : FanAction.complete j₀.uuid ∈ pre
  · rw [← hj₀eq, if_pos hin]
  · rw [← hj₀eq, if_neg hin] at hjc
    exact absurd (hcover j₀ hj₀ hjc) hin

/-- C1: over any well-formed interleaving of the task workers' completion
writes and aggregate checks (ai.py lines 1033-1055), the parent
course-structure job ends `completed` exactly when at least one task job
was recorded for the course and every one of them is terminal in the
final state. -/
theorem C1_completion_aggregation (cid : Nat) (p : String) (U : List String)
    (succ : String → Bool) (acts : List FanAction) (w : World)
    (hwf : WfSchedule U succ acts)
    (hjobs : (w.taskJobs.filter (fun j => j.course_id == cid)).map (·.uuid) = U)
    (hstarted : ∀ j ∈ w.taskJobs, j.course_id = cid →
      j.status = GenerateTaskJobStatus.started)
    (hparent : courseJobStatus w p = some GenerateCourseJobStatus.started) :
    (courseJobStatus (runFan cid p acts w) p =
        some GenerateCourseJobStatus.completed ↔
      (w.taskJobs.filter (fun j => j.course_id == cid) ≠ [] ∧
        ∀ j ∈ (runFan cid p acts w).taskJobs, j.course_id = cid →
          (j.status = GenerateTaskJobStatus.completed ∨
            j.status = GenerateTaskJobStatus.failed))) := by
  have hU_mem : ∀ u ∈ U, ∃ j ∈ w.taskJobs, j.course_id = cid ∧ j.uuid = u ∧
      j.status = GenerateTaskJobStatus.started := by
    intro u hu
    rw [← hjobs] at hu
    obtain ⟨j, hjf, hju⟩ := List.mem_map.mp hu
    have hjmem := (List.mem_filter.mp hjf).1
    have hjc : j.course_id = cid := by
      have h2 := (List.mem_filter.mp hjf).2
      simpa using h2
    exact ⟨j, hjmem, hjc, hju, hstarted j hjmem hjc⟩
  have hjob_U : ∀ j ∈ w.taskJobs, j.course_id = cid → j.uuid ∈ U := by
    intro j hj hc
    rw [← hjobs]
    exact List.mem_map_of_mem _ (List.mem_filter.mpr ⟨hj, by simp [hc]⟩)
  have hne_iff : w.taskJobs.filter (fun j => j.course_id == cid) ≠ [] ↔
      U ≠ [] := by
    rw [← hjobs]
    simp [List.map_eq_nil_iff]
  have hterm_iff : (∀ j ∈ (runFan cid p acts w).taskJobs, j.course_id = cid →
      (j.status = GenerateTaskJobStatus.completed ∨
        j.status = GenerateTaskJobStatus.failed)) ↔
      (∀ u ∈ U, succ u = true) := by
    rw [runFan_taskJobs]
    constructor
    · intro hterm u hu
      obtain ⟨j, hj, hjc, hju, hjs⟩ := hU_mem u hu
      have hmem : (if FanAction.complete j.uuid ∈ acts then
          { j with status := GenerateTaskJobStatus.completed } else j) ∈
          w.taskJobs.map (fun j => if FanAction.complete j.uuid ∈ acts then
            { j with status := GenerateTaskJobStatus.completed } else j) :=
        List.mem_map_of_mem _ hj
      by_cases hin : FanAction.complete j.uuid ∈ acts
      · cases hsu : succ u with
        | true => rfl
        | false =>
            rw [hju] at hin
            exact absurd hin (hwf.fail_no_compl u hu hsu)
      · have hterm2 := hterm _ hmem (by rw [if_neg hin]; exact hjc)
        rw [if_neg hin] at hterm2
        rcases hterm2 with h1 | h1 <;> rw [hjs] at h1 <;>
          exact absurd h1 (by simp)
    · intro hAll j hjm hjc
      obtain ⟨j₀, hj₀, hj₀eq⟩ := List.mem_map.mp hjm
      have hc₀ : j₀.course_id = cid := by
        by_cases hin : FanAction.complete j₀.uuid ∈ acts
        · rw [← hj₀eq, if_pos hin] at hjc; exact hjc
        · rw [← hj₀eq, if_neg hin] at hjc; exact hjc
      have hin : FanAction.complete j₀.uuid ∈ acts :=
        hwf.compl_mem _ (hjob_U j₀ hj₀ hc₀) (hAll _ (hjob_U j₀ hj₀ hc₀))
      rw [← hj₀eq, if_pos hin]
      exact Or.inl rfl
  constructor
  · intro hdone
    constructor
    · rw [hne_iff]
      intro hUnil
      have hacts : acts = [] := by
        rw [List.eq_nil_iff_forall_not_mem]
        intro a ha
        obtain ⟨u, hu, _⟩ := hwf.act_mem a ha
        rw [hUnil] at hu
        exact absurd hu (List.not_mem_nil u)
      rw [hacts] at hdone
      rw [show runFan cid p [] w = w from rfl, hparent] at hdone
      exact absurd hdone (by simp)
    · rw [hterm_iff]
      intro u hu
      cases hsu : succ u with
      | true => rfl
      | false =>
          obtain ⟨j, hj, hjc, hju, hjs⟩ := hU_mem u hu
          have hstuck := runFan_parent_stuck cid p u acts w
            ⟨j, hj, hjc, hju, hjs⟩ (hwf.fail_no_compl u hu hsu)
          rw [hstuck, hparent] at hdone
          exact absurd hdone (by simp)
  · rintro ⟨hne, hterm⟩
    have hAll : ∀ u ∈ U, succ u = true := hterm_iff.mp hterm
    have hUne : U ≠ [] := hne_iff.mp hne
    obtain ⟨u₀, hu₀⟩ := List.exists_mem_of_ne_nil U hUne
    have hc₀ : FanAction.complete u₀ ∈ acts := hwf.compl_mem u₀ hu₀ (hAll u₀ hu₀)
    obtain ⟨l₁, x, l₂, heq, hpx, hnone⟩ := exists_last_split
      (fun a => ∃ v, a = FanAction.complete v) acts ⟨_, hc₀, u₀, rfl⟩
    obtain ⟨ustar, hx⟩ := hpx
    subst hx
    have hUstar : ustar ∈ U ∧ succ ustar = true := by
      obtain ⟨u', hu', hsu', hor⟩ := hwf.act_mem (FanAction.complete ustar)
        (by rw [heq]; exact List.mem_append.mpr (Or.inr (List.mem_cons_self _ _)))
      rcases hor with h | h
      · simp only [FanAction.complete.injEq] at h
        subst h
        exact ⟨hu', hsu'⟩
      · exact absurd h (by simp)
    have hcheck : FanAction.check ustar ∈ acts :=
      hwf.check_mem ustar hUstar.1 hUstar.2
    have hcount := hwf.compl_unique ustar hUstar.1
    have hnotl1 : FanAction.complete ustar ∉ l₁ := by
      intro hmem
      rw [heq, List.countP_append, List.countP_cons_of_pos _ _ (by simp)]
        at hcount
      have hp : 0 < l₁.countP (fun a => decide (a = FanAction.complete ustar)) := by
        rw [List.countP_pos_iff]
        exact ⟨_, hmem, by simp⟩
      omega
    have hchk_not_l1 : FanAction.check ustar ∉ l₁ := by
      intro hmem
      obtain ⟨La, Lb, hL⟩ := List.append_of_mem hmem
      have heq2 : acts = La ++ FanAction.check ustar ::
          (Lb ++ FanAction.complete ustar :: l₂) := by
        rw [heq, hL]
        simp
      have hin := checkAfter_split acts hwf.check_after La ustar _ heq2
      exact hnotl1 (by rw [hL]; exact List.mem_append.mpr (Or.inl hin))
    have hchk_l2 : FanAction.check ustar ∈ l₂ := by
      rw [heq] at hcheck
      rcases List.mem_append.mp hcheck with h | h
      · exact absurd h hchk_not_l1
      · rcases List.mem_cons.mp h with h0 | h0
        · exact absurd h0 (by simp)
        · exact h0
    obtain ⟨l₃, l₄, hl₂⟩ := List.append_of_mem hchk_l2
    have hacts2 : acts = (l₁ ++ FanAction.complete ustar :: l₃) ++
        FanAction.check ustar :: l₄ := by
      rw [heq, hl₂]
      simp
    have hcompl_prefix : ∀ u ∈ U, succ u = true →
        FanAction.complete u ∈ l₁ ++ FanAction.complete ustar :: l₃ := by
      intro u hu hsu
      have hin := hwf.compl_mem u hu hsu
      rw [heq] at hin
      rcases List.mem_append.mp hin with h | h
      · exact List.mem_append.mpr (Or.inl h)
      · rcases List.mem_cons.mp h with h0 | h0
        · rw [h0]
          exact List.mem_append.mpr (Or.inr (List.mem_cons_self _ _))
        · exact absurd ⟨u, rfl⟩ (hnone _ h0)
    have hzero : (get_course_task_generation_jobs_status
        (runFan cid p (l₁ ++ FanAction.complete ustar :: l₃) w) cid).started = 0 :=
      startedCount_zero cid _ (runFan_all_completed cid p _ w (fun j hj hc =>
        hcompl_prefix j.uuid (hjob_U j hj hc) (hAll _ (hjob_U j hj hc))))
    have hsome : ∃ st, courseJobStatus
        (runFan cid p (l₁ ++ FanAction.complete ustar :: l₃) w) p = some st := by
      rcases runFan_parent_cases cid p
        (l₁ ++ FanAction.complete ustar :: l₃) w with h | h
      · exact ⟨_, by rw [h, hparent]⟩
      · exact ⟨_, h⟩
    obtain ⟨st, hst⟩ := hsome
    rw [hacts2, runFan_append]
    show courseJobStatus (runFan cid p (FanAction.check ustar :: l₄)
      (runFan cid p (l₁ ++ FanAction.complete ustar :: l₃) w)) p = _
    show courseJobStatus (runFan cid p l₄ (fanStep cid p
      (runFan cid p (l₁ ++ FanAction.complete ustar :: l₃) w)
      (.check ustar))) p = _
    apply runFan_preserves_parent_completed
    simp only [fanStep]
    rw [if_pos hzero, courseJobStatus_update, hst]
    rfl

/-! ### Claim theorems -/

theorem drop_append_len {α : Type} (xs ys : List α) :
    (xs ++ ys).drop xs.length = ys := by
  have h := drop_append_of_length xs ys 0
  simp only [Nat.add_zero, List.drop_zero] at h
  exact h

theorem taskJob_map_find_failed (u v : String) (st : GenerateTaskJobStatus)
    (hval : ¬ st = GenerateTaskJobStatus.failed) (l : List TaskJob) :
    ((l.map (fun j => if j.uuid = u then { j with status := st } else j)).find?
        (fun j => j.uuid == v)).map (·.status) =
      some GenerateTaskJobStatus.failed →
    (l.find? (fun j => j.uuid == v)).map (·.status) =
      some GenerateTaskJobStatus.failed := by
  induction l with
  | nil => intro h; simp at h
  | cons j rest ih =>
      intro h
      simp only [List.map_cons] at h
      by_cases hu : j.uuid = u
      · rw [if_pos hu] at h
        by_cases hj : j.uuid = v
        · rw [List.find?_cons_of_pos _ (by simp [hj])] at h
          rw [List.find?_cons_of_pos _ (by simp [hj])]
          simp at h
          exact absurd h hval
        · rw [List.find?_cons_of_neg _ (by simp [hj])] at h
          rw [List.find?_cons_of_neg _ (by simp [hj])]
          exact ih h
      · rw [if_neg hu] at h
        by_cases hj : j.uuid = v
        · rw [List.find?_cons_of_pos _ (by simp [hj])] at h
          rw [List.find?_cons_of_pos _ (by simp [hj])]
          exact h
        · rw [List.find?_cons_of_neg _ (by simp [hj])] at h
          rw [List.find?_cons_of_neg _ (by simp [hj])]
          exact ih h

theorem taskJobStatus_update_ne_val (w : World) (u v : String)
    (st : GenerateTaskJobStatus) (hval : ¬ st = GenerateTaskJobStatus.failed)
    (h : taskJobStatus (update_task_generation_job_status w u st) v =
      some GenerateTaskJobStatus.failed) :
    taskJobStatus w v = some GenerateTaskJobStatus.failed := by
  simp only [taskJobStatus, update_task_generation_job_status] at h ⊢
  exact taskJob_map_find_failed u v st hval w.taskJobs h

/-- C2 (refuted): the task-content worker contains no `try`/`except`: a
provider or persistence failure leaves the world unchanged - the task job
stays `started`, is never marked `failed` - and the exception propagates
out of the worker into the batch runner (ai.py lines 974-1055 never write
`GenerateTaskJobStatus.FAILED`). -/
theorem C2_worker_failure_unhandled :
    generate_course_task (.error "provider failure") (.ok ()) cU2 cW2 =
        (cW2, .error "provider failure") ∧
    generate_course_task (.ok "content") (.error "db failure") cU2 cW2 =
        (cW2, .error "db failure") ∧
    taskJobStatus cW2 "tj" = some GenerateTaskJobStatus.started ∧
    taskJobStatus (generate_course_task (.error "provider failure") (.ok ())
        cU2 cW2).1 "tj" = some GenerateTaskJobStatus.started ∧
    ∀ (pr : Except String String) (ps : Except String Unit) (u : WorkUnit)
      (w : World) (v : String),
      taskJobStatus (generate_course_task pr ps u w).1 v =
          some GenerateTaskJobStatus.failed →
        taskJobStatus w v = some GenerateTaskJobStatus.failed := by
  refine ⟨rfl, rfl, rfl, rfl, ?_⟩
  intro pr ps u w v h
  cases pr with
  | error e => exact h
  | ok content =>
      cases ps with
      | error e => exact h
      | ok _ =>
          simp only [generate_course_task] at h
          split at h
          all_goals
            exact taskJobStatus_update_ne_val
              { w with contents := w.contents ++ [(u.task.id, content)] }
              u.task_job_uuid v .completed (by simp) h

/-- C3 counterexample: under the spec's superset order the index-based
dedup of the streaming loop re-materializes module `B`: the first
emission's first module is invalid (empty name) so only `B` is created at
index 1; the second emission fills the name in, shifting `B` back to a
position the cursor has not covered, so `module_created` for `B` fires
twice. -/
theorem C3_superset_duplicates :
    outlineSup cE1 cE2 = true ∧
    (moduleCreatedNames (processEmissions 7 [cE1, cE2]
      ⟨[], [], emptyWorld⟩).world.events).count "B" = 2 :=
  ⟨rfl, rfl⟩

/-- C3 (amended): on provider streams that extend depth-first at the tail
(each emission appends new entities after the previous ones, the loop's
actual dedup discipline), the events fired across the whole sequence are
in exact bijection with the final emission: one `module_created` per
module of the final outline in order, and one `task_created` per leaf
task in depth-first order - no duplicates, no drops. -/
theorem C3_monotone_materialization (cid : Nat) (w0 : World)
    (chunks : List Output)
    (hwf : ∀ E ∈ chunks, outlineWF E = true)
    (hchain : extChain chunks = true) :
    moduleCreatedNames ((processEmissions cid chunks
        ⟨[], [], w0⟩).world.events.drop w0.events.length) =
      ((chunks.getLastD ⟨[]⟩).modules).map (·.name) ∧
    taskCreatedPairs ((processEmissions cid chunks
        ⟨[], [], w0⟩).world.events.drop w0.events.length) =
      (dfsTasks (chunks.getLastD ⟨[]⟩).modules).map (fun t => (t.name, t.type)) := by
  rw [processEmissions_canon cid w0 chunks hwf hchain]
  have hdrop : (canonSt cid w0 ((chunks.getLastD ⟨[]⟩).modules)).world.events.drop
      w0.events.length = (canonDeltas cid w0.nextMilestoneId w0.nextTaskRowId
        (milestoneCount w0 cid) (taskRowCount w0 cid)
        ((chunks.getLastD ⟨[]⟩).modules)).2.2 := by
    show (w0.events ++ _).drop w0.events.length = _
    rw [drop_append_len]
  rw [hdrop, moduleCreatedNames_canonDeltas, taskCreatedPairs_canonDeltas]
  exact ⟨rfl, rfl⟩

/-- Witness for the amended C3 on a concrete two-emission chain. -/
theorem C3_monotone_materialization_witness :
    moduleCreatedNames ((processEmissions 7 [cEa, cEb]
        ⟨[], [], emptyWorld⟩).world.events.drop emptyWorld.events.length) =
      (([cEa, cEb].getLastD ⟨[]⟩).modules).map (·.name) ∧
    taskCreatedPairs ((processEmissions 7 [cEa, cEb]
        ⟨[], [], emptyWorld⟩).world.events.drop emptyWorld.events.length) =
      (dfsTasks ([cEa, cEb].getLastD ⟨[]⟩).modules).map
        (fun t => (t.name, t.type)) :=
  C3_monotone_materialization 7 emptyWorld [cEa, cEb] (by decide) (by decide)

/-- C4 (refuted): the resume path re-runs the worker with fresh in-memory
dedup state (`module_ids = []`, empty `module_concepts`), so the module
the stored `details.course_structure` already reflects is materialized a
second time: after resuming, course 7 holds two milestone rows named
`Intro`. -/
theorem C4_resume_recreates :
    (resume_pending_course_structure_generation_jobs cStreams4 cW4).map
      (fun w => (w.milestones.filter
        (fun r => r.course_id == 7 && r.name == "Intro")).length) = some 2 := by
  rfl

/-- C5: dispatching task generation records exactly one `started` task
job per leaf task of the outline, each details payload carrying the task
descriptor, the concept descriptor, the reference-material handle, the
parent job token and the course id (ai.py lines 1074-1099). -/
theorem C5_one_job_per_leaf (cid : Nat) (uuid : String) (w : World)
    (jd : JobDetails) (cs : StampedOutline)
    (hjd : get_course_generation_job_details w uuid = some jd)
    (hcs : jd.course_structure = some cs) :
    ∃ r, generate_course_tasks cid uuid w = some r ∧
      r.1.taskJobs = w.taskJobs ++
        expectedTaskJobs cid uuid jd.openai_file_id w.nextJobId
          (leavesWithConcept cs) ∧
      (expectedTaskJobs cid uuid jd.openai_file_id w.nextJobId
        (leavesWithConcept cs)).length = (leavesWithConcept cs).length := by
  refine ⟨storeLeafJobs cid uuid jd.openai_file_id (leavesWithConcept cs) w,
    ?_, ?_, ?_⟩
  · simp only [generate_course_tasks, hjd, hcs]
  · rw [storeLeafJobs_spec]
  · exact expectedTaskJobs_length cid uuid jd.openai_file_id
      (leavesWithConcept cs) w.nextJobId

/-- Witness for C5 at the concrete two-leaf outline of the spec's
scenario. -/
theorem C5_one_job_per_leaf_witness :
    ∃ r, generate_course_tasks 7 "cj5" cW5 = some r ∧
      r.1.taskJobs = cW5.taskJobs ++
        expectedTaskJobs 7 "cj5" cJd5.openai_file_id cW5.nextJobId
          (leavesWithConcept cStampedFan) ∧
      (expectedTaskJobs 7 "cj5" cJd5.openai_file_id cW5.nextJobId
        (leavesWithConcept cStampedFan)).length =
        (leavesWithConcept cStampedFan).length :=
  C5_one_job_per_leaf 7 "cj5" cW5 cJd5 cStampedFan rfl rfl

/-- C6: when the stream completes, the parent job's details get the final
emission stamped with the durable ids assigned at materialization - the
module ids and leaf-task ids of the stamp are exactly the ids broadcast by
the `module_created`/`task_created` events, aligned by position - and the
parent job's status moves from `started` to `pending`
(ai.py lines 751-765). -/
theorem C6_final_emission_persisted (cid : Nat) (w : World) (uuid : String)
    (jd : JobDetails) (chunks : List Output) (last : Output)
    (hwf : ∀ E ∈ chunks, outlineWF E = true)
    (hchain : extChain chunks = true)
    (hlast : chunks.getLast? = some last)
    (hstatus : courseJobStatus w uuid = some GenerateCourseJobStatus.started) :
    ∃ w', _generate_course_structure chunks cid uuid jd w = some w' ∧
      courseJobStatus w' uuid = some GenerateCourseJobStatus.pending ∧
      get_course_generation_job_details w' uuid =
        some (withStructure jd
          (canonStamp w.nextMilestoneId w.nextTaskRowId last)) ∧
      moduleCreatedIds (w'.events.drop w.events.length) =
        (canonStamp w.nextMilestoneId w.nextTaskRowId last).modules.map (·.id) ∧
      taskCreatedIds (w'.events.drop w.events.length) =
        (stampedLeaves (canonStamp w.nextMilestoneId w.nextTaskRowId last)).map
          (·.id) := by
  cases last with
  | mk lastM =>
  have hlastD : chunks.getLastD ⟨[]⟩ = ⟨lastM⟩ := by
    rw [List.getLastD_eq_getLast?, hlast]
    rfl
  have hcanon := processEmissions_canon cid w chunks hwf hchain
  rw [hlastD] at hcanon
  obtain ⟨j, hjfind⟩ : ∃ j, w.courseJobs.find? (fun j => j.uuid == uuid) =
      some j := by
    simp only [courseJobStatus] at hstatus
    cases hf : w.courseJobs.find? (fun j => j.uuid == uuid) with
    | none => rw [hf] at hstatus; exact absurd hstatus (by simp)
    | some j => exact ⟨j, rfl⟩
  have hgen : _generate_course_structure chunks cid uuid jd w =
      some (finishWorld cid uuid jd (canonSt cid w lastM).world
        (canonStamp w.nextMilestoneId w.nextTaskRowId ⟨lastM⟩)) := by
    simp only [_generate_course_structure, hcanon, hlast, stampOutline_canonSt]
    rfl
  refine ⟨_, hgen, ?_, ?_, ?_, ?_⟩
  · show courseJobStatus (update_course_generation_job_status_and_details
      (canonSt cid w lastM).world uuid .pending
      (withStructure jd
        (canonStamp w.nextMilestoneId w.nextTaskRowId ⟨lastM⟩))) uuid = _
    rw [courseJobStatus_update_sd]
    rw [show courseJobStatus (canonSt cid w lastM).world uuid =
      courseJobStatus w uuid from rfl, hstatus]
    rfl
  · show get_course_generation_job_details
      (update_course_generation_job_status_and_details
        (canonSt cid w lastM).world uuid .pending
        (withStructure jd
          (canonStamp w.nextMilestoneId w.nextTaskRowId ⟨lastM⟩))) uuid = _
    rw [courseJobDetails_update_sd]
    rw [show get_course_generation_job_details (canonSt cid w lastM).world uuid =
      get_course_generation_job_details w uuid from rfl]
    simp [get_course_generation_job_details, hjfind]
  · show moduleCreatedIds (((w.events ++
      (canonDeltas cid w.nextMilestoneId w.nextTaskRowId
        (milestoneCount w cid) (taskRowCount w cid) lastM).2.2) ++
      [Event.course_structure_completed cid uuid]).drop w.events.length) = _
    rw [List.append_assoc, drop_append_len]
    rw [moduleCreatedIds_append, moduleCreatedIds_canonDeltas]
    rw [show (canonStamp w.nextMilestoneId w.nextTaskRowId ⟨lastM⟩).modules =
      canonStampModules w.nextMilestoneId w.nextTaskRowId lastM from rfl]
    rw [canonStampModules_ids]
    simp [moduleCreatedIds]
  · show taskCreatedIds (((w.events ++
      (canonDeltas cid w.nextMilestoneId w.nextTaskRowId
        (milestoneCount w cid) (taskRowCount w cid) lastM).2.2) ++
      [Event.course_structure_completed cid uuid]).drop w.events.length) = _
    rw [List.append_assoc, drop_append_len]
    rw [taskCreatedIds_append, taskCreatedIds_canonDeltas]
    rw [show canonStamp w.nextMilestoneId w.nextTaskRowId ⟨lastM⟩ =
      StampedOutline.mk (canonStampModules w.nextMilestoneId w.nextTaskRowId lastM)
      from rfl]
    rw [canonStamp_leaf_ids]
    simp [taskCreatedIds]

/-- Witness for C6 on the concrete two-emission chain. -/
theorem C6_final_emission_persisted_witness :
    ∃ w', _generate_course_structure [cEa, cEb] 7 "cj" cJd cW6 = some w' ∧
      courseJobStatus w' "cj" = some GenerateCourseJobStatus.pending ∧
      get_course_generation_job_details w' "cj" =
        some (withStructure cJd
          (canonStamp cW6.nextMilestoneId cW6.nextTaskRowId cEb)) ∧
      moduleCreatedIds (w'.events.drop cW6.events.length) =
        (canonStamp cW6.nextMilestoneId cW6.nextTaskRowId cEb).modules.map
          (·.id) ∧
      taskCreatedIds (w'.events.drop cW6.events.length) =
        (stampedLeaves (canonStamp cW6.nextMilestoneId cW6.nextTaskRowId
          cEb)).map (·.id) :=
  C6_final_emission_persisted 7 cW6 "cj" cJd [cEa, cEb] cEb (by decide)
    (by decide) rfl rfl

/-- Witness for C1 at a concrete two-worker schedule where both workers
succeed, each checking after its own completion write. -/
theorem C1_completion_aggregation_witness :
    courseJobStatus (runFan 7 "cj" cActs1 cW1) "cj" =
        some GenerateCourseJobStatus.completed ↔
      (cW1.taskJobs.filter (fun j => j.course_id == 7) ≠ [] ∧
        ∀ j ∈ (runFan 7 "cj" cActs1 cW1).taskJobs, j.course_id = 7 →
          (j.status = GenerateTaskJobStatus.completed ∨
            j.status = GenerateTaskJobStatus.failed)) :=
  C1_completion_aggregation 7 "cj" ["tjA", "tjB"] (fun _ => true) cActs1 cW1
    ⟨by decide, by decide, by decide, by decide, by decide, by decide⟩
    (by decide) (by decide) (by decide)

/-- C7: in the batch runner, even when some unit of work fails, every
submitted unit still reaches its own terminal outcome - in any terminal
scheduler state each unit is finished with its own result; the failure
neither cancels nor blocks siblings. -/
theorem C7_failure_isolation (K : Nat) (oc : Nat → Bool) (units : List Nat)
    (s : BatchState) (h : BatchReach K oc (batchInit units) s)
    (hq : s.queued = []) (hr : s.running = [])
    (t : Nat) (_ht : t ∈ units) (_htf : oc t = false)
    (u : Nat) (hu : u ∈ units) :
    (u, oc u) ∈ s.finished := by
  have hperm := batchReach_units_perm K oc units s h
  rw [hq, hr] at hperm
  simp only [List.nil_append] at hperm
  have humem : u ∈ s.finished.map Prod.fst := hperm.mem_iff.mp hu
  obtain ⟨q, hq', hqeq⟩ := List.mem_map.mp humem
  have hout := batchReach_outcomes K oc units s h q hq'
  obtain ⟨a, b⟩ := q
  simp only at hqeq hout
  subst hqeq
  rw [hout] at hq'
  exact hq'

/-- Witness for C7: a pool of two, a batch of two units of which unit 1
fails; both units end finished with their own outcomes. -/
theorem C7_failure_isolation_witness :
    ((0 : Nat), cOc 0) ∈ cBatchFinal.finished :=
  C7_failure_isolation 2 cOc [0, 1] cBatchFinal
    (BatchReach.step (BatchReach.step (BatchReach.step (BatchReach.step
      BatchReach.refl
      (BatchStep.launch 0 [1] [] [] (by decide)))
      (BatchStep.launch 1 [] [0] [] (by decide)))
      (BatchStep.finish 0 [] [0, 1] [] (by decide)))
      (BatchStep.finish 1 [] [1] [(0, true)] (by decide)))
    rfl rfl 1 (by decide) (by decide) 0 (by decide)

/-- C8: every event the pipeline can broadcast on a course's progress
channel carries one of the four event names, and a failing worker run
(provider error or persistence error) broadcasts nothing at all - there
is no job-failed event. -/
theorem C8_progress_event_names (e : Event) (ps : Except String Unit)
    (er c : String) (u : WorkUnit) (w : World) :
    e.name ∈ progressEventNames ∧
    (generate_course_task (.error er) ps u w).1.events = w.events ∧
    (generate_course_task (.ok c) (.error er) u w).1.events = w.events := by
  refine ⟨?_, rfl, rfl⟩
  cases e <;> simp [Event.name, progressEventNames]

/-- C9: the batch runner's pool bound holds in every reachable scheduler
state: at no point are more than K units in flight. -/
theorem C9_bounded_concurrency (K : Nat) (oc : Nat → Bool) (units : List Nat)
    (s : BatchState) (h : BatchReach K oc (batchInit units) s) :
    s.running.length ≤ K := by
  induction h with
  | refl => simp [batchInit]
  | step hr hstep ih => exact batchStep_running_le _ _ _ _ hstep ih

/-- Witness for C9: three units through a pool of two, checked at the
state where both slots are busy. -/
theorem C9_bounded_concurrency_witness : cBatchMid.running.length ≤ 2 :=
  C9_bounded_concurrency 2 cOc [0, 1, 2] cBatchMid
    (BatchReach.step (BatchReach.step BatchReach.refl
      (BatchStep.launch 0 [1, 2] [] [] (by decide)))
      (BatchStep.launch 1 [2] [0] [] (by decide)))

/-- C10: at the moment the fan-out endpoint responds, every leaf's task
job is already recorded (`started`, hence listed by the incomplete-jobs
query a recovery would run); the returned, still-unexecuted worker units
are one per recorded job; and no worker body has run - the event log and
the persisted contents are unchanged (ai.py lines 1058-1114:
`asyncio.create_task` is not awaited before the handler returns). -/
theorem C10_jobs_before_workers (cid : Nat) (uuid : String) (w : World)
    (jd : JobDetails) (cs : StampedOutline)
    (hjd : get_course_generation_job_details w uuid = some jd)
    (hcs : jd.course_structure = some cs) :
    ∃ r, generate_course_tasks cid uuid w = some r ∧
      r.1.events = w.events ∧
      r.1.contents = w.contents ∧
      (∀ j ∈ r.1.taskJobs.drop w.taskJobs.length,
        j.status = GenerateTaskJobStatus.started ∧
          j ∈ get_all_pending_task_generation_jobs r.1) ∧
      r.2.map (·.task_job_uuid) =
        (r.1.taskJobs.drop w.taskJobs.length).map (·.uuid) ∧
      (r.1.taskJobs.drop w.taskJobs.length).length =
        (leavesWithConcept cs).length := by
  have hgen : generate_course_tasks cid uuid w =
      some (storeLeafJobs cid uuid jd.openai_file_id (leavesWithConcept cs) w) := by
    simp only [generate_course_tasks, hjd, hcs]
  rw [storeLeafJobs_spec] at hgen
  refine ⟨_, hgen, rfl, rfl, ?_, ?_, ?_⟩
  · intro j hj
    have hdrop : ({ w with
        nextJobId := w.nextJobId + (leavesWithConcept cs).length
        taskJobs := w.taskJobs ++ expectedTaskJobs cid uuid jd.openai_file_id
          w.nextJobId (leavesWithConcept cs) } : World).taskJobs.drop
        w.taskJobs.length = expectedTaskJobs cid uuid jd.openai_file_id
          w.nextJobId (leavesWithConcept cs) := by
      show (w.taskJobs ++ _).drop w.taskJobs.length = _
      rw [drop_append_len]
    rw [hdrop] at hj
    have hshape := expectedTaskJobs_shape cid uuid jd.openai_file_id
      (leavesWithConcept cs) w.nextJobId j hj
    refine ⟨hshape.1, ?_⟩
    show j ∈ List.filter _ _
    rw [List.mem_filter]
    refine ⟨?_, by simp [hshape.1]⟩
    show j ∈ w.taskJobs ++ _
    exact List.mem_append.mpr (Or.inr hj)
  · show (expectedUnits cid uuid jd.openai_file_id w.nextJobId
      (leavesWithConcept cs)).map (·.task_job_uuid) = _
    rw [show ({ w with
        nextJobId := w.nextJobId + (leavesWithConcept cs).length
        taskJobs := w.taskJobs ++ expectedTaskJobs cid uuid jd.openai_file_id
          w.nextJobId (leavesWithConcept cs) } : World).taskJobs.drop
        w.taskJobs.length = expectedTaskJobs cid uuid jd.openai_file_id
          w.nextJobId (leavesWithConcept cs) from by
      show (w.taskJobs ++ _).drop w.taskJobs.length = _
      rw [drop_append_len]]
    exact expectedUnits_uuids cid uuid jd.openai_file_id
      (leavesWithConcept cs) w.nextJobId
  · rw [show ({ w with
        nextJobId := w.nextJobId + (leavesWithConcept cs).length
        taskJobs := w.taskJobs ++ expectedTaskJobs cid uuid jd.openai_file_id
          w.nextJobId (leavesWithConcept cs) } : World).taskJobs.drop
        w.taskJobs.length = expectedTaskJobs cid uuid jd.openai_file_id
          w.nextJobId (leavesWithConcept cs) from by
      show (w.taskJobs ++ _).drop w.taskJobs.length = _
      rw [drop_append_len]]
    exact expectedTaskJobs_length cid uuid jd.openai_file_id
      (leavesWithConcept cs) w.nextJobId

/-- Witness for C10 at the concrete two-leaf outline. -/
theorem C10_jobs_before_workers_witness :
    ∃ r, generate_course_tasks 7 "cj5" cW5 = some r ∧
      r.1.events = cW5.events ∧
      r.1.contents = cW5.contents ∧
      (∀ j ∈ r.1.taskJobs.drop cW5.taskJobs.length,
        j.status = GenerateTaskJobStatus.started ∧
          j ∈ get_all_pending_task_generation_jobs r.1) ∧
      r.2.map (·.task_job_uuid) =
        (r.1.taskJobs.drop cW5.taskJobs.length).map (·.uuid) ∧
      (r.1.taskJobs.drop cW5.taskJobs.length).length =
        (leavesWithConcept cStampedFan).length :=
  C10_jobs_before_workers 7 "cj5" cW5 cJd5 cStampedFan rfl rfl

end SensAI
